import Mathlib

/-! # RDF term model, graph equality and pattern queries (package `rdf`)

A shallow embedding of `rdf/triple.go`: the term structs, their `Eq`
methods and the Go method sets that decide which struct may sit in
which field of `Triple` and `TriplePattern`.

`Graph`, `Graph.Eq`, `groupPatternsByVariable`, `Graph.Where` and the literal
constructors are used by `rdf/graph_test.go` but are not part of the sources
at hand; they are modelled from the specification (sections 3, 4.1, 4.2 and
4.3) and compare terms with the `Eq` methods of `triple.go`.
-/

set_option autoImplicit false

/-! ## Terms (`triple.go`) -/

/-- Go `type URI struct { val string }`. -/
structure URI where
  val : String
deriving DecidableEq, Repr

/-- Go `type BlankNode struct { id string }`. -/
structure BlankNode where
  id : String
deriving DecidableEq, Repr

/-- Go `type Literal struct { val string; lang string; dt URI }`. -/
structure Literal where
  val : String
  lang : String
  dt : URI
deriving DecidableEq, Repr

/-- Go `type Variable struct { id string }`. -/
structure Variable where
  id : String
deriving DecidableEq, Repr

/-- Values of the Go interface `Term`: the structs of `triple.go` that have
`Eq`, `String` and `validAsTerm`. -/
inductive Term where
  | uri (u : URI)
  | blank (b : BlankNode)
  | literal (l : Literal)
deriving DecidableEq, Repr

/-- Go `func (b BlankNode) Eq(other Term) bool`. -/
def BlankNode.Eq (b : BlankNode) (other : Term) : Bool :=
  match other with
  | .blank t => b.id == t.id
  | _ => false

/-- Go `func (u URI) Eq(other Term) bool`. -/
def URI.Eq (u : URI) (other : Term) : Bool :=
  match other with
  | .uri t => u.val == t.val
  | _ => false

/-- Go `func (l Literal) Eq(other Term) bool`. -/
def Literal.Eq (l : Literal) (other : Term) : Bool :=
  match other with
  | .literal t => l.val == t.val && l.lang == t.lang && l.dt.val == t.dt.val
  | _ => false

/-- Dynamic dispatch of `Eq` on a value of interface type `Term`. -/
def Term.Eq (a : Term) (other : Term) : Bool :=
  match a with
  | .uri u => u.Eq other
  | .blank b => b.Eq other
  | .literal l => l.Eq other

/-- The datatype identifier that `Literal.String` prints without a suffix. -/
def xsdString : String := "http://www.w3.org/2001/XMLSchema#string"

/-- Modelled from the spec: the constructor `NewStrLiteral` (called by
`graph_test.go`, not defined in `triple.go`). Section 3: a literal without
language tag or datatype carries the implicit string datatype. -/
def NewStrLiteral (v : String) : Literal :=
  { val := v, lang := "", dt := { val := xsdString } }

/-- Modelled from the spec: the constructor `NewTypedLiteral` (called by
`graph_test.go`, not defined in `triple.go`): a value with an explicit
datatype and no language tag. -/
def NewTypedLiteral (v : String) (dt : URI) : Literal :=
  { val := v, lang := "", dt := dt }

/-! ## Method sets and field types -/

/-- The four struct types declared in `triple.go`. -/
inductive Kind where
  | uri
  | blankNode
  | literal
  | variable
deriving DecidableEq, Repr

/-- Every method name declared or required in `triple.go`. -/
inductive Method where
  | Eq
  | String
  | validAsTerm
  | validAsSubject
  | validAsPredicate
  | validAsObject
  | validAsObj
  | DataType
  | Lang
deriving DecidableEq, Repr

/-- The methods declared on each struct, in source order. -/
def Kind.methods : Kind → List Method
  | .blankNode => [.validAsTerm, .validAsSubject, .String, .Eq]
  | .uri => [.validAsTerm, .validAsPredicate, .validAsSubject, .validAsObject, .String, .Eq]
  | .literal => [.validAsTerm, .validAsObject, .DataType, .Lang, .String, .Eq]
  | .variable => [.validAsSubject, .validAsPredicate, .validAsObj]

/-- Go `type subject interface { validAsSubject() }`. -/
def Iface.subject : List Method := [.validAsSubject]

/-- Go `type predicate interface { validAsPredicate() }`. -/
def Iface.predicate : List Method := [.validAsPredicate]

/-- Go `type object interface { validAsObject() }`. -/
def Iface.object : List Method := [.validAsObject]

/-- Go `type Term interface { Eq(Term) bool; String() string; validAsTerm() }`. -/
def Iface.Term : List Method := [.Eq, .String, .validAsTerm]

/-- Go `type Subject interface { Term; subject }`. -/
def Iface.Subject : List Method := Iface.Term ++ Iface.subject

/-- The type of a struct field: a named struct or an interface. -/
inductive GoType where
  | named (k : Kind)
  | iface (ms : List Method)
deriving DecidableEq, Repr

/-- Go assignability of a struct value to a field: the same struct, or a
struct whose method set has every method of the interface. -/
def assignable (k : Kind) : GoType → Bool
  | .named k0 => k == k0
  | .iface ms => ms.all (fun m => m ∈ k.methods)

/-- The three fields of `Triple` and `TriplePattern`. -/
inductive Position where
  | subj
  | pred
  | obj
deriving DecidableEq, Repr

/-- Field types of `type Triple struct { Subj Subject; Pred URI; Obj Term }`. -/
def Triple.fieldType : Position → GoType
  | .subj => .iface Iface.Subject
  | .pred => .named .uri
  | .obj => .iface Iface.Term

/-- Field types of
`type TriplePattern struct { Subj subject; Pred predicate; Obj object }`. -/
def TriplePattern.fieldType : Position → GoType
  | .subj => .iface Iface.subject
  | .pred => .iface Iface.predicate
  | .obj => .iface Iface.object

/-! ## Patterns -/

/-- A value held by a field of `TriplePattern`: the fields have interface
types, so any struct with the marker method can sit there. The embedding
admits all four structs in every field; `TriplePattern.fieldType` says which
of them the Go type checker accepts. -/
inductive Node where
  | uri (u : URI)
  | blank (b : BlankNode)
  | literal (l : Literal)
  | var (v : Variable)
deriving DecidableEq, Repr

/-- Go `type TriplePattern struct { Subj subject; Pred predicate; Obj object }`. -/
structure TriplePattern where
  Subj : Node
  Pred : Node
  Obj : Node
deriving DecidableEq, Repr

/-- The variable name of a pattern field, if it holds a Variable. -/
def Node.vars : Node → List String
  | .var v => [v.id]
  | _ => []

/-- The variable names of a pattern, in any position. -/
def TriplePattern.vars (p : TriplePattern) : List String :=
  p.Subj.vars ++ p.Pred.vars ++ p.Obj.vars

/-- Two patterns are directly connected: they share at least one variable
name in any position (spec 4.2). -/
def sharesVariable (p q : TriplePattern) : Bool :=
  p.vars.any (fun v => v ∈ q.vars)

/-- A group under construction touches a pattern when one of its members
shares a variable with it. -/
def groupTouches (g : List (Nat × TriplePattern)) (p : TriplePattern) : Bool :=
  g.any (fun e => sharesVariable e.2 p)

/-- Put the merged group at the place of the first group that touches `p`,
drop the later groups that touch `p` (they are part of `merged`), and append
it at the end when no group touches `p`. -/
def placeGroup (merged : List (Nat × TriplePattern)) (p : TriplePattern) :
    List (List (Nat × TriplePattern)) → List (List (Nat × TriplePattern))
  | [] => [merged]
  | g :: gs =>
    if groupTouches g p then merged :: gs.filter (fun h => !groupTouches h p)
    else g :: placeGroup merged p gs

/-- One step of the grouping: the pattern `e` (with its input position) joins
every group it shares a variable with; these groups merge into one, kept in
input order. -/
def addPattern (gs : List (List (Nat × TriplePattern))) (e : Nat × TriplePattern) :
    List (List (Nat × TriplePattern)) :=
  let hit := gs.filter (fun g => groupTouches g e.2)
  let merged := (hit.flatten ++ [e]).insertionSort (fun a b => a.1 ≤ b.1)
  placeGroup merged e.2 gs

/-- The grouping with every pattern tagged by its position in the input. -/
def groupIndexed (ps : List TriplePattern) : List (List (Nat × TriplePattern)) :=
  ps.enum.foldl addPattern []

/-- Modelled from the spec: `groupPatternsByVariable` (called by
`graph_test.go`, absent from the sources). Section 4.2: the patterns are
split into the classes of the connectivity by shared variables, merging
classes when a later pattern shares a variable with them; groups keep the
input order of their patterns and are ordered by their earliest member;
patterns without variables form singleton groups. -/
def groupPatternsByVariable (ps : List TriplePattern) : List (List TriplePattern) :=
  (groupIndexed ps).map (fun g => g.map Prod.snd)

/-- Direct connection of two tagged patterns of `S`: both occur in `S` and
they share a variable. -/
def linked (S : List (Nat × TriplePattern)) (x y : Nat × TriplePattern) : Prop :=
  x ∈ S ∧ y ∈ S ∧ sharesVariable x.2 y.2 = true

/-- Connection through a chain of patterns of `S` that pairwise share a
variable (a chain may have length zero). -/
def chained (S : List (Nat × TriplePattern)) (x y : Nat × TriplePattern) : Prop :=
  Relation.ReflTransGen (linked S) x y

/-- No member of `g` shares a variable with a member of `h`. -/
def groupsApart (g h : List (Nat × TriplePattern)) : Prop :=
  ∀ x ∈ g, ∀ y ∈ h, sharesVariable x.2 y.2 = false

/-- What the grouping maintains after the patterns `S` have been added. -/
structure GroupInv (S : List (Nat × TriplePattern))
    (gs : List (List (Nat × TriplePattern))) : Prop where
  perm : gs.flatten.Perm S
  nonempty : ∀ g ∈ gs, g ≠ []
  apart : gs.Pairwise groupsApart
  conn : ∀ g ∈ gs, ∀ x ∈ g, ∀ y ∈ g, chained S x y

/-- Connection of two patterns through a chain of patterns of `ps` in which
each pattern shares a variable with the next (a chain may have length zero). -/
def connected (ps : List TriplePattern) (p q : TriplePattern) : Prop :=
  Relation.ReflTransGen (fun a b => a ∈ ps ∧ b ∈ ps ∧ sharesVariable a b = true) p q

/-! ## Triples and graphs -/

/-- Values of the Go interface `Subject` (`Term` plus `validAsSubject`):
URI and BlankNode. -/
inductive Subject where
  | uri (u : URI)
  | blank (b : BlankNode)
deriving DecidableEq, Repr

/-- A subject seen as a `Term` (`Subject` embeds `Term`). -/
def Subject.toTerm : Subject → Term
  | .uri u => .uri u
  | .blank b => .blank b

/-- Go `type Triple struct { Subj Subject; Pred URI; Obj Term }`. -/
structure Triple where
  Subj : Subject
  Pred : URI
  Obj : Term
deriving DecidableEq, Repr

/-- Term-wise equality of two triples, each position compared by the `Eq`
method of its term. -/
def Triple.Eq (a b : Triple) : Bool :=
  a.Subj.toTerm.Eq b.Subj.toTerm && a.Pred.Eq (Term.uri b.Pred) && a.Obj.Eq b.Obj

/-- Membership of a triple in a list of triples, by term-wise equality. -/
def hasTriple (ts : List Triple) (t : Triple) : Bool :=
  ts.any (fun s => s.Eq t)

/-- Modelled from the spec: the type `Graph` (absent from the sources).
Section 3: a set of triples, insertion order irrelevant, no two stored
triples term-wise identical. -/
structure Graph where
  triples : List Triple
  nodup : triples.Nodup

/-- Modelled from the spec: graph construction from a triple sequence,
collapsing duplicates (section 3, Lifecycle). -/
def Graph.new (ts : List Triple) : Graph :=
  { triples := ts.dedup, nodup := List.nodup_dedup ts }

/-! ## Pattern matching (spec 4.3) -/

/-- A binding environment: variable names with the terms bound to them. -/
abbrev Bindings := List (String × Term)

/-- Modelled from the spec: consistency of a pattern term with a candidate
term under the current bindings (section 4.3): a concrete pattern term must
equal the candidate, a bound variable must equal its bound value, an unbound
variable matches any term and extends the bindings. -/
def matchTerm (env : Bindings) (n : Node) (t : Term) : Option Bindings :=
  match n with
  | .uri u => if u.Eq t then some env else none
  | .blank b => if b.Eq t then some env else none
  | .literal l => if l.Eq t then some env else none
  | .var v =>
    match env.lookup v.id with
    | some bound => if bound.Eq t then some env else none
    | none => some ((v.id, t) :: env)

/-- Modelled from the spec: consistency of a pattern with a candidate triple,
position by position (section 4.3). -/
def matchTriple (env : Bindings) (p : TriplePattern) (t : Triple) : Option Bindings :=
  match matchTerm env p.Subj t.Subj.toTerm with
  | none => none
  | some e1 =>
    match matchTerm e1 p.Pred (Term.uri t.Pred) with
    | none => none
    | some e2 => matchTerm e2 p.Obj t.Obj

/-- Modelled from the spec: the backtracking join over one group of patterns
(section 4.3): the patterns are processed in order; for each, every triple of
the graph consistent with it under the current bindings is tried; at the end
of the pattern list the triples consumed along the path are recorded. -/
def matchGroup (g : List Triple) : Bindings → List Triple → List TriplePattern → List Triple
  | _, path, [] => path
  | env, path, p :: rest =>
    g.flatMap (fun t =>
      match matchTriple env p t with
      | some env2 => matchGroup g env2 (t :: path) rest
      | none => [])

/-- Modelled from the spec: `Graph.Where` (called by `graph_test.go`, absent
from the sources). Section 4.3: each group of `groupPatternsByVariable` is
evaluated independently, from the empty bindings, and the results are
unioned into a new graph. -/
def Graph.Where (g : Graph) (ps : List TriplePattern) : Graph :=
  Graph.new ((groupPatternsByVariable ps).flatMap (fun grp => matchGroup g.triples [] [] grp))

/-- A variable assignment: a term for every variable name. -/
abbrev Assignment := String → Term

/-- A pattern term is satisfied by a term under an assignment: a variable is
assigned that term, a concrete pattern term is `Eq` to it. -/
def Node.satisfiedBy (σ : Assignment) (n : Node) (t : Term) : Prop :=
  match n with
  | .uri u => u.Eq t = true
  | .blank b => b.Eq t = true
  | .literal l => l.Eq t = true
  | .var v => σ v.id = t

/-- The triple `t` is the one matched by pattern `p` under the assignment. -/
def TriplePattern.matchedBy (σ : Assignment) (p : TriplePattern) (t : Triple) : Prop :=
  p.Subj.satisfiedBy σ t.Subj.toTerm ∧ p.Pred.satisfiedBy σ (Term.uri t.Pred) ∧
    p.Obj.satisfiedBy σ t.Obj

/-- The assignment satisfies every pattern of the group against the triples
`g`: each pattern is matched by some triple of `g`. -/
def satisfiesGroup (σ : Assignment) (g : List Triple) (grp : List TriplePattern) : Prop :=
  ∀ p ∈ grp, ∃ s ∈ g, p.matchedBy σ s

/-- The assignment agrees with the bindings made so far. -/
def agrees (σ : Assignment) (env : Bindings) : Prop :=
  ∀ v b, env.lookup v = some b → σ v = b

/-- The bindings `e2` keep every binding of `e1`. -/
def extendsBindings (e1 e2 : Bindings) : Prop :=
  ∀ v b, e1.lookup v = some b → e2.lookup v = some b

/-! ## Graph equality up to blank-node renaming (spec 4.1) -/

/-- Replace a blank node by its image; other terms are left alone. -/
def Term.rename (f : BlankNode → BlankNode) : Term → Term
  | .blank b => .blank (f b)
  | .uri u => .uri u
  | .literal l => .literal l

/-- Replace a blank-node subject by its image. -/
def Subject.rename (f : BlankNode → BlankNode) : Subject → Subject
  | .blank b => .blank (f b)
  | .uri u => .uri u

/-- Apply a blank-node renaming to a triple. -/
def Triple.rename (f : BlankNode → BlankNode) (t : Triple) : Triple :=
  { Subj := t.Subj.rename f, Pred := t.Pred, Obj := t.Obj.rename f }

/-- The blank node of a term, if it is one. -/
def Term.blankNodes : Term → List BlankNode
  | .blank b => [b]
  | _ => []

/-- The blank nodes in subject and object position of a triple. -/
def Triple.blankNodes (t : Triple) : List BlankNode :=
  t.Subj.toTerm.blankNodes ++ t.Obj.blankNodes

/-- A ground triple contains no blank node. -/
def Triple.isGround (t : Triple) : Bool :=
  t.blankNodes.isEmpty

/-- The distinct blank nodes referenced by a list of triples. -/
def blankNodesOf (ts : List Triple) : List BlankNode :=
  (ts.flatMap Triple.blankNodes).dedup

/-- The struct behind a term. -/
def Term.kind : Term → Kind
  | .uri _ => .uri
  | .blank _ => .blankNode
  | .literal _ => .literal

/-- The local structural signature of a blank node: for every occurrence, the
predicate, the position of the node and the kind of the other term. -/
def signature (ts : List Triple) (x : BlankNode) : List (URI × Position × Kind) :=
  ts.flatMap (fun t =>
    (if x.Eq t.Subj.toTerm then [(t.Pred, Position.subj, t.Obj.kind)] else []) ++
    (if x.Eq t.Obj then [(t.Pred, Position.obj, t.Subj.toTerm.kind)] else []))

/-- Two lists of triples hold the same triples (compared as sets). -/
def sameTriples (xs ys : List Triple) : Bool :=
  xs.all (fun t => hasTriple ys t) && ys.all (fun t => hasTriple xs t)

/-- The image of a blank node under the committed mappings. -/
def applyMapping (m : List (BlankNode × BlankNode)) (b : BlankNode) : BlankNode :=
  (m.lookup b).getD b

/-- Verification of a full candidate: mapping every non-ground triple of the
first graph gives exactly the non-ground triples of the second. -/
def verifyMapping (na nb : List Triple) (m : List (BlankNode × BlankNode)) : Bool :=
  sameTriples (na.map (Triple.rename (applyMapping m))) nb

/-- Backtracking search: the blank nodes of the first graph are processed in
order; the candidates for each are the blank nodes of the second graph not yet
used as an image and with the same signature (as multisets); a full candidate
is verified. -/
def searchBijection (na nb : List Triple) (bb : List BlankNode) :
    List BlankNode → List (BlankNode × BlankNode) → Bool
  | [], m => verifyMapping na nb m
  | x :: rest, m =>
    bb.any (fun y =>
      !(m.any (fun e => e.2 == y)) &&
      decide ((signature na x).Perm (signature nb y)) &&
      searchBijection na nb bb rest ((x, y) :: m))

/-- Modelled from the spec: `Graph.Eq` (called by `graph_test.go`, absent from
the sources). Section 4.1: reject when the triple counts differ or the ground
triples differ as sets; collect the blank nodes of the non-ground triples and
reject when their counts differ; then search a bijection by backtracking. -/
def Graph.Eq (a b : Graph) : Bool :=
  if a.triples.length ≠ b.triples.length then false
  else if !sameTriples (a.triples.filter Triple.isGround) (b.triples.filter Triple.isGround)
  then false
  else
    let na := a.triples.filter (fun t => !t.isGround)
    let nb := b.triples.filter (fun t => !t.isGround)
    let ba := blankNodesOf na
    let bb := blankNodesOf nb
    if ba.length ≠ bb.length then false
    else searchBijection na nb bb ba []

/-! ## Inputs of the repository's tests -/

/-- The graph `<s> <p> _:a . _:a <p> "xyz" .` of `TestGraphIsomorphism`. -/
def testGraphA : Graph := Graph.new
  [{ Subj := .uri { val := "s" }, Pred := { val := "p" }, Obj := .blank { id := "a" } },
   { Subj := .blank { id := "a" }, Pred := { val := "p" },
     Obj := .literal (NewStrLiteral "xyz") }]

/-- The graph `<s> <p> _:b . _:b <p> "xyz" .` of `TestGraphIsomorphism`. -/
def testGraphB : Graph := Graph.new
  [{ Subj := .uri { val := "s" }, Pred := { val := "p" }, Obj := .blank { id := "b" } },
   { Subj := .blank { id := "b" }, Pred := { val := "p" },
     Obj := .literal (NewStrLiteral "xyz") }]

/-- The patterns `(h1, knows, ?a)`, `(?a, knows, ?b)`, `(?b, knows, h2)`,
`(?c, related, h1)` of `TestGroupPatternsByVariable`. -/
def testPatterns : List TriplePattern :=
  [{ Subj := .uri { val := "h1" }, Pred := .uri { val := "knows" }, Obj := .var { id := "a" } },
   { Subj := .var { id := "a" }, Pred := .uri { val := "knows" }, Obj := .var { id := "b" } },
   { Subj := .var { id := "b" }, Pred := .uri { val := "knows" }, Obj := .uri { val := "h2" } },
   { Subj := .var { id := "c" }, Pred := .uri { val := "related" }, Obj := .uri { val := "h1" } }]

/-- A query for the statement about `"xyz"`: `(?x, p, "xyz")`. -/
def testQuery : List TriplePattern :=
  [{ Subj := .var { id := "x" }, Pred := .uri { val := "p" },
     Obj := .literal (NewStrLiteral "xyz") }]

/-! ## Printing (`triple.go`) -/

/-- Go `func (u URI) String() string { return "<" + u.val + ">" }`. -/
def URI.String (u : URI) : String :=
  "<" ++ u.val ++ ">"

/-- Go `func (l Literal) String() string`. The function `quote` stands for
`strconv.Quote` of the Go standard library, which is also what the verb `%q`
of `fmt.Sprintf` applies to a string; the verb `%s` prints `l.lang` as it is
and prints `l.dt` through its `String` method. -/
def Literal.String (quote : String → String) (l : Literal) : String :=
  if l.lang ≠ "" then quote l.val ++ "@" ++ l.lang
  else if l.dt.val = "http://www.w3.org/2001/XMLSchema#string" then quote l.val
  else quote l.val ++ "^^" ++ l.dt.String

/-! ## Renaming the blank nodes of a graph -/

/-- The graph `g` with every blank node replaced by its image under `r`. -/
def Graph.rename (r : BlankNode → BlankNode) (g : Graph) : Graph :=
  Graph.new (g.triples.map (Triple.rename r))

/-- The renaming that exchanges the blank nodes `_:a` and `_:b`. -/
def swapAB (x : BlankNode) : BlankNode :=
  if x.id = "a" then { id := "b" } else if x.id = "b" then { id := "a" } else x

/-- The all-variables pattern `(?s, ?p, ?o)`. -/
def allVariables (s p o : Variable) : TriplePattern :=
  { Subj := .var s, Pred := .var p, Obj := .var o }

/-! ## Term equality -/

/-- C9: `u.Eq(t)` holds exactly when `t` is a URI with the identifier of `u`. -/
theorem URI_Eq_iff (u : URI) (t : Term) :
    u.Eq t = true ↔ ∃ w : URI, t = Term.uri w ∧ w.val = u.val := by
  cases t with
  | uri w =>
    simp only [URI.Eq, beq_iff_eq, Term.uri.injEq]
    constructor
    · intro h
      exact ⟨w, rfl, h.symm⟩
    · rintro ⟨w0, rfl, h⟩
      exact h.symm
  | blank b => simp [URI.Eq]
  | literal l => simp [URI.Eq]

/-- C10: `b.Eq(t)` holds exactly when `t` is a blank node with the identifier
of `b`. -/
theorem BlankNode_Eq_iff (b : BlankNode) (t : Term) :
    b.Eq t = true ↔ ∃ c : BlankNode, t = Term.blank c ∧ c.id = b.id := by
  cases t with
  | blank c =>
    simp only [BlankNode.Eq, beq_iff_eq, Term.blank.injEq]
    constructor
    · intro h
      exact ⟨c, rfl, h.symm⟩
    · rintro ⟨c0, rfl, h⟩
      exact h.symm
  | uri w => simp [BlankNode.Eq]
  | literal l => simp [BlankNode.Eq]

/-- The `Eq` of two literals is the conjunction of the three field
comparisons of the source. -/
theorem Literal_Eq_fields (a b : Literal) :
    a.Eq (Term.literal b) = true ↔ a.val = b.val ∧ a.lang = b.lang ∧ a.dt.val = b.dt.val := by
  simp [Literal.Eq, and_assoc]

/-- C2: for every value string, the literal built without language tag and
datatype is `Eq`, in both directions, to the literal built with the explicit
datatype `http://www.w3.org/2001/XMLSchema#string`: the stored datatype of the
first is the implicit string datatype, and `Eq` compares the stored datatype
identifiers. -/
theorem Literal_Eq_implicit_string (v : String) :
    (NewStrLiteral v).Eq (Term.literal (NewTypedLiteral v { val := xsdString })) = true ∧
    (NewTypedLiteral v { val := xsdString }).Eq (Term.literal (NewStrLiteral v)) = true ∧
    (NewStrLiteral v).dt.val = xsdString ∧
    (∀ a b : Literal, a.Eq (Term.literal b) = true ↔
      a.val = b.val ∧ a.lang = b.lang ∧ a.dt.val = b.dt.val) := by
  refine ⟨?_, ?_, rfl, Literal_Eq_fields⟩
  · simp [Literal.Eq, NewStrLiteral, NewTypedLiteral]
  · simp [Literal.Eq, NewStrLiteral, NewTypedLiteral]

/-- C8: two literals that are `Eq` have the same value string and the same
language tag; so a literal with a language tag is never `Eq` to one without,
and literals with different value strings are never `Eq`. -/
theorem Literal_Eq_val_lang (a b : Literal) (h : a.Eq (Term.literal b) = true) :
    a.val = b.val ∧ a.lang = b.lang ∧ ¬ (a.lang ≠ "" ∧ b.lang = "") := by
  obtain ⟨hv, hl, _⟩ := (Literal_Eq_fields a b).1 h
  refine ⟨hv, hl, ?_⟩
  rintro ⟨h1, h2⟩
  exact h1 (hl.trans h2)

/-- Witness for C8 at the literal `"Penguin"` of the query test. -/
theorem Literal_Eq_val_lang_witness :
    (NewStrLiteral "Penguin").Eq (Term.literal (NewStrLiteral "Penguin")) = true ∧
    (NewStrLiteral "Penguin").val = (NewStrLiteral "Penguin").val ∧
    (NewStrLiteral "Penguin").lang = (NewStrLiteral "Penguin").lang ∧
    ¬ ((NewStrLiteral "Penguin").lang ≠ "" ∧ (NewStrLiteral "Penguin").lang = "") :=
  ⟨by simp [Literal.Eq],
   Literal_Eq_val_lang (NewStrLiteral "Penguin") (NewStrLiteral "Penguin") (by simp [Literal.Eq])⟩

/-! ## Position legality -/

/-- C5: the structs assignable to the fields of `Triple` are URI and BlankNode
for `Subj`, URI for `Pred`, and URI, BlankNode and Literal for `Obj`; a
Variable fits no field and a Literal fits neither `Subj` nor `Pred`. -/
theorem Triple_field_kinds :
    (∀ k : Kind, assignable k (Triple.fieldType .subj) = true ↔
      k = .uri ∨ k = .blankNode) ∧
    (∀ k : Kind, assignable k (Triple.fieldType .pred) = true ↔ k = .uri) ∧
    (∀ k : Kind, assignable k (Triple.fieldType .obj) = true ↔
      k = .uri ∨ k = .blankNode ∨ k = .literal) ∧
    (∀ p : Position, assignable .variable (Triple.fieldType p) = false) ∧
    assignable .literal (Triple.fieldType .subj) = false ∧
    assignable .literal (Triple.fieldType .pred) = false := by
  refine ⟨?_, ?_, ?_, ?_, by decide, by decide⟩
  · intro k; cases k <;> decide
  · intro k; cases k <;> decide
  · intro k; cases k <;> decide
  · intro p; cases p <;> decide

/-- C6, evaluated on the source: a Variable satisfies the `subject` and
`predicate` interfaces but not `object`, because its third marker method is
named `validAsObj` while `object` requires `validAsObject`. -/
theorem Variable_not_object :
    assignable .variable (TriplePattern.fieldType .subj) = true ∧
    assignable .variable (TriplePattern.fieldType .pred) = true ∧
    assignable .variable (TriplePattern.fieldType .obj) = false ∧
    Method.validAsObj ∈ Kind.variable.methods ∧
    Method.validAsObject ∉ Kind.variable.methods := by
  decide

/-- C7, evaluated on the source: `TriplePattern` accepts URI, BlankNode and
Variable as `Subj` and URI and Variable as `Pred`, but its `Obj` accepts only
URI and Literal: a BlankNode, legal as `Obj` of a `Triple`, has no
`validAsObject` method. -/
theorem TriplePattern_field_kinds :
    (∀ k : Kind, assignable k (TriplePattern.fieldType .subj) = true ↔
      k = .uri ∨ k = .blankNode ∨ k = .variable) ∧
    (∀ k : Kind, assignable k (TriplePattern.fieldType .pred) = true ↔
      k = .uri ∨ k = .variable) ∧
    (∀ k : Kind, assignable k (TriplePattern.fieldType .obj) = true ↔
      k = .uri ∨ k = .literal) ∧
    assignable .blankNode (Triple.fieldType .obj) = true ∧
    assignable .blankNode (TriplePattern.fieldType .obj) = false := by
  refine ⟨?_, ?_, ?_, by decide, by decide⟩
  · intro k; cases k <;> decide
  · intro k; cases k <;> decide
  · intro k; cases k <;> decide

/-! ## Grouping patterns by shared variables -/

theorem sharesVariable_comm (p q : TriplePattern) :
    sharesVariable p q = sharesVariable q p := by
  have key : ∀ a b : TriplePattern, sharesVariable a b = true → sharesVariable b a = true := by
    intro a b h
    simp only [sharesVariable, List.any_eq_true, decide_eq_true_eq] at h ⊢
    obtain ⟨v, hv, hv2⟩ := h
    exact ⟨v, hv2, hv⟩
  cases h1 : sharesVariable p q
  · cases h2 : sharesVariable q p
    · rfl
    · rw [key q p h2] at h1
      exact h1.symm
  · exact (key p q h1).symm

theorem groupsApart_symm {g h : List (Nat × TriplePattern)} (H : groupsApart g h) :
    groupsApart h g := by
  intro x hx y hy
  rw [sharesVariable_comm]
  exact H y hy x hx

theorem linked_symm {S : List (Nat × TriplePattern)} {x y : Nat × TriplePattern}
    (h : linked S x y) : linked S y x :=
  ⟨h.2.1, h.1, by rw [sharesVariable_comm]; exact h.2.2⟩

theorem chained_symm {S : List (Nat × TriplePattern)} {x y : Nat × TriplePattern}
    (h : chained S x y) : chained S y x :=
  Relation.ReflTransGen.symmetric (fun _ _ hab => linked_symm hab) h

theorem chained_trans {S : List (Nat × TriplePattern)} {x y z : Nat × TriplePattern}
    (h1 : chained S x y) (h2 : chained S y z) : chained S x z :=
  Relation.ReflTransGen.trans h1 h2

theorem chained_mono {S T : List (Nat × TriplePattern)} (hST : ∀ x ∈ S, x ∈ T)
    {x y : Nat × TriplePattern} (h : chained S x y) : chained T x y :=
  Relation.ReflTransGen.mono (fun _ _ hab => ⟨hST _ hab.1, hST _ hab.2.1, hab.2.2⟩) h

theorem placeGroup_perm (merged : List (Nat × TriplePattern)) (p : TriplePattern)
    (gs : List (List (Nat × TriplePattern))) :
    (placeGroup merged p gs).Perm (merged :: gs.filter (fun h => !groupTouches h p)) := by
  induction gs with
  | nil => simp [placeGroup]
  | cons g gs ih =>
    by_cases hg : groupTouches g p = true
    · simp [placeGroup, hg]
    · have hg2 : groupTouches g p = false := by simpa using hg
      simp only [placeGroup, hg2, Bool.false_eq_true, ↓reduceIte, List.filter_cons,
        Bool.not_false]
      exact (List.Perm.cons g ih).trans (List.Perm.swap merged g _)

theorem addPattern_perm (gs : List (List (Nat × TriplePattern))) (e : Nat × TriplePattern) :
    (addPattern gs e).Perm
      (((gs.filter (fun g => groupTouches g e.2)).flatten ++ [e]).insertionSort
          (fun a b => a.1 ≤ b.1) :: gs.filter (fun h => !groupTouches h e.2)) :=
  placeGroup_perm _ _ _

theorem GroupInv.of_perm {S : List (Nat × TriplePattern)}
    {gs hs : List (List (Nat × TriplePattern))} (hp : hs.Perm gs) (H : GroupInv S gs) :
    GroupInv S hs where
  perm := (List.Perm.flatten hp).trans H.perm
  nonempty := fun g hg => H.nonempty g (hp.subset hg)
  apart := (List.Perm.pairwise_iff (fun h => groupsApart_symm h) hp).2 H.apart
  conn := fun g hg => H.conn g (hp.subset hg)

theorem GroupInv.nil : GroupInv [] [] where
  perm := by simp
  nonempty := by simp
  apart := List.Pairwise.nil
  conn := by simp

theorem GroupInv.step {S : List (Nat × TriplePattern)}
    {gs : List (List (Nat × TriplePattern))} (H : GroupInv S gs) (e : Nat × TriplePattern) :
    GroupInv (S ++ [e]) (addPattern gs e) := by
  refine GroupInv.of_perm (addPattern_perm gs e) ?_
  set hit := gs.filter (fun g => groupTouches g e.2) with hhit
  set miss := gs.filter (fun h => !groupTouches h e.2) with hmiss
  set merged := (hit.flatten ++ [e]).insertionSort (fun a b => a.1 ≤ b.1) with hmerged
  have hsplit : (hit ++ miss).Perm gs := List.filter_append_perm _ gs
  have hm : merged.Perm (hit.flatten ++ [e]) := List.perm_insertionSort _ _
  have hmem : ∀ x, x ∈ merged ↔ (∃ g ∈ hit, x ∈ g) ∨ x = e := by
    intro x
    rw [hm.mem_iff]
    simp [List.mem_flatten]
  have hapart2 : (hit ++ miss).Pairwise groupsApart :=
    (List.Perm.pairwise_iff (fun h => groupsApart_symm h) hsplit).2 H.apart
  rw [List.pairwise_append] at hapart2
  have heS : e ∈ S ++ [e] := by simp
  have hsub : ∀ x ∈ S, x ∈ S ++ [e] := fun x hx => List.mem_append_left _ hx
  have hhit_gs : ∀ g ∈ hit, g ∈ gs := fun g hg => (List.mem_filter.1 hg).1
  have hmiss_gs : ∀ g ∈ miss, g ∈ gs := fun g hg => (List.mem_filter.1 hg).1
  have hInS : ∀ g ∈ gs, ∀ x ∈ g, x ∈ S := fun g hg x hx =>
    H.perm.subset (List.mem_flatten.2 ⟨g, hg, hx⟩)
  -- every member of the merged group is chained to the new pattern
  have hto : ∀ x ∈ merged, chained (S ++ [e]) x e := by
    intro x hx
    rcases (hmem x).1 hx with ⟨g, hg, hxg⟩ | rfl
    · have htouch : groupTouches g e.2 = true := (List.mem_filter.1 hg).2
      simp only [groupTouches, List.any_eq_true] at htouch
      obtain ⟨w, hw, hwe⟩ := htouch
      have h1 : chained (S ++ [e]) x w := chained_mono hsub (H.conn g (hhit_gs g hg) x hxg w hw)
      have h2 : linked (S ++ [e]) w e := ⟨hsub w (hInS g (hhit_gs g hg) w hw), heS, hwe⟩
      exact Relation.ReflTransGen.tail h1 h2
    · exact Relation.ReflTransGen.refl
  constructor
  · -- perm
    simp only [List.flatten_cons]
    have h1 : (hit.flatten ++ miss.flatten).Perm S := by
      rw [← List.flatten_append]
      exact (List.Perm.flatten hsplit).trans H.perm
    have h2 : (merged ++ miss.flatten).Perm ((hit.flatten ++ [e]) ++ miss.flatten) :=
      List.Perm.append_right _ hm
    have h3 : ((hit.flatten ++ [e]) ++ miss.flatten).Perm (hit.flatten ++ (miss.flatten ++ [e])) := by
      rw [List.append_assoc]
      exact List.Perm.append_left _ List.perm_append_comm
    have h4 : (hit.flatten ++ (miss.flatten ++ [e])).Perm (S ++ [e]) := by
      rw [← List.append_assoc]
      exact List.Perm.append_right _ h1
    exact h2.trans (h3.trans h4)
  · -- nonempty
    intro g hg
    rcases List.mem_cons.1 hg with rfl | hg
    · intro h0
      have : e ∈ merged := (hmem e).2 (Or.inr rfl)
      rw [h0] at this
      simp at this
    · exact H.nonempty g (hmiss_gs g hg)
  · -- apart
    rw [List.pairwise_cons]
    refine ⟨?_, hapart2.2.1⟩
    intro m hmm x hx y hy
    rcases (hmem x).1 hx with ⟨g, hg, hxg⟩ | rfl
    · exact hapart2.2.2 g hg m hmm x hxg y hy
    · have hnt : groupTouches m x.2 = false := by
        have := (List.mem_filter.1 hmm).2
        simpa using this
      rw [sharesVariable_comm]
      simp only [groupTouches, List.any_eq_false] at hnt
      simpa using hnt y hy
  · -- conn
    intro g hg x hx y hy
    rcases List.mem_cons.1 hg with rfl | hg
    · exact chained_trans (hto x hx) (chained_symm (hto y hy))
    · exact chained_mono hsub (H.conn g (hmiss_gs g hg) x hx y hy)

theorem GroupInv.foldl (rest : List (Nat × TriplePattern)) :
    ∀ (S : List (Nat × TriplePattern)) (gs : List (List (Nat × TriplePattern))),
      GroupInv S gs → GroupInv (S ++ rest) (rest.foldl addPattern gs) := by
  induction rest with
  | nil => intro S gs H; simpa using H
  | cons e rest ih =>
    intro S gs H
    have := ih (S ++ [e]) (addPattern gs e) (H.step e)
    simpa [List.append_assoc] using this

theorem groupIndexed_inv (ps : List TriplePattern) : GroupInv ps.enum (groupIndexed ps) := by
  have := GroupInv.foldl ps.enum [] [] GroupInv.nil
  simpa [groupIndexed] using this

theorem GroupInv.linked_same {S : List (Nat × TriplePattern)}
    {gs : List (List (Nat × TriplePattern))} (H : GroupInv S gs)
    {x y : Nat × TriplePattern} (hxy : linked S x y)
    {g : List (Nat × TriplePattern)} (hg : g ∈ gs) (hx : x ∈ g) : y ∈ g := by
  obtain ⟨h, hh, hy⟩ := List.mem_flatten.1 (H.perm.mem_iff.2 hxy.2.1)
  by_cases hgh : g = h
  · rw [hgh]; exact hy
  · have := List.Pairwise.forall (fun _ _ hab => groupsApart_symm hab) H.apart hg hh hgh x hx y hy
    rw [hxy.2.2] at this
    exact absurd this (by simp)

theorem GroupInv.chained_same {S : List (Nat × TriplePattern)}
    {gs : List (List (Nat × TriplePattern))} (H : GroupInv S gs)
    {x y : Nat × TriplePattern} (hxy : chained S x y)
    {g : List (Nat × TriplePattern)} (hg : g ∈ gs) (hx : x ∈ g) : y ∈ g := by
  induction hxy with
  | refl => exact hx
  | tail _ hbc ih => exact H.linked_same hbc hg ih

theorem GroupInv.group_unique {S : List (Nat × TriplePattern)}
    {gs : List (List (Nat × TriplePattern))} (H : GroupInv S gs) (hS : S.Nodup)
    {e : Nat × TriplePattern} {g h : List (Nat × TriplePattern)}
    (hg : g ∈ gs) (hh : h ∈ gs) (heg : e ∈ g) (heh : e ∈ h) : g = h := by
  by_contra hne
  have hnd : gs.flatten.Nodup := H.perm.nodup_iff.2 hS
  rw [List.nodup_flatten] at hnd
  have hd : List.Disjoint g h :=
    List.Pairwise.forall (fun _ _ hab => List.Disjoint.symm hab) hnd.2 hg hh hne
  exact hd heg heh

theorem enum_nodup (ps : List TriplePattern) : ps.enum.Nodup :=
  List.Nodup.of_map Prod.fst (List.nodup_enum_map_fst ps)

theorem groupPatternsByVariable_flatten (ps : List TriplePattern) :
    (groupPatternsByVariable ps).flatten = (groupIndexed ps).flatten.map Prod.snd := by
  simp [groupPatternsByVariable, List.map_flatten]

theorem snd_mem_of_mem_enum {ps : List TriplePattern} {x : Nat × TriplePattern}
    (hx : x ∈ ps.enum) : x.2 ∈ ps := by
  have : x.2 ∈ ps.enum.map Prod.snd := List.mem_map_of_mem _ hx
  simpa using this

theorem exists_enum_of_mem {ps : List TriplePattern} {p : TriplePattern}
    (hp : p ∈ ps) : ∃ x ∈ ps.enum, x.2 = p := by
  have : p ∈ ps.enum.map Prod.snd := by simpa using hp
  obtain ⟨x, hx, rfl⟩ := List.mem_map.1 this
  exact ⟨x, hx, rfl⟩

theorem connected_of_chained {ps : List TriplePattern} {x y : Nat × TriplePattern}
    (h : chained ps.enum x y) : connected ps x.2 y.2 := by
  induction h with
  | refl => exact Relation.ReflTransGen.refl
  | tail _ hbc ih =>
    exact Relation.ReflTransGen.tail ih
      ⟨snd_mem_of_mem_enum hbc.1, snd_mem_of_mem_enum hbc.2.1, hbc.2.2⟩

/-- C4: `groupPatternsByVariable` partitions its input: the groups together
are a rearrangement of the input, every tagged input pattern lies in exactly
one group, no group is empty, and two patterns lie in a common group exactly
when a chain of input patterns, each sharing a variable with the next, connects
them (stated for the patterns tagged with their input position and for the
patterns themselves). -/
theorem groupPatternsByVariable_partition (ps : List TriplePattern) :
    (groupPatternsByVariable ps).flatten.Perm ps ∧
    (∀ g ∈ groupPatternsByVariable ps, g ≠ []) ∧
    (∀ e ∈ ps.enum, ∃! g, g ∈ groupIndexed ps ∧ e ∈ g) ∧
    (∀ x ∈ ps.enum, ∀ y ∈ ps.enum,
      (∃ g ∈ groupIndexed ps, x ∈ g ∧ y ∈ g) ↔ chained ps.enum x y) ∧
    (∀ p ∈ ps, ∀ q ∈ ps,
      (∃ g ∈ groupPatternsByVariable ps, p ∈ g ∧ q ∈ g) ↔ connected ps p q) := by
  have H := groupIndexed_inv ps
  have hcover : ∀ e ∈ ps.enum, ∃ g ∈ groupIndexed ps, e ∈ g := fun e he =>
    List.mem_flatten.1 (H.perm.mem_iff.2 he)
  refine ⟨?_, ?_, ?_, ?_, ?_⟩
  · rw [groupPatternsByVariable_flatten]
    have := List.Perm.map Prod.snd H.perm
    simpa using this
  · intro g hg
    simp only [groupPatternsByVariable, List.mem_map] at hg
    obtain ⟨g0, hg0, rfl⟩ := hg
    have := H.nonempty g0 hg0
    simpa using this
  · intro e he
    obtain ⟨g, hg, heg⟩ := hcover e he
    exact ⟨g, ⟨hg, heg⟩, fun h hh => H.group_unique (enum_nodup ps) hh.1 hg hh.2 heg⟩
  · intro x hx y _
    constructor
    · rintro ⟨g, hg, hxg, hyg⟩
      exact H.conn g hg x hxg y hyg
    · intro hxy
      obtain ⟨g, hg, hxg⟩ := hcover x hx
      exact ⟨g, hg, hxg, H.chained_same hxy hg hxg⟩
  · intro p hp q _
    constructor
    · rintro ⟨g, hg, hpg, hqg⟩
      simp only [groupPatternsByVariable, List.mem_map] at hg
      obtain ⟨g0, hg0, rfl⟩ := hg
      obtain ⟨x, hx, rfl⟩ := List.mem_map.1 hpg
      obtain ⟨y, hy, rfl⟩ := List.mem_map.1 hqg
      exact connected_of_chained (H.conn g0 hg0 x hx y hy)
    · intro hpq
      induction hpq with
      | refl =>
        obtain ⟨x, hx, rfl⟩ := exists_enum_of_mem hp
        obtain ⟨g, hg, hxg⟩ := hcover x hx
        exact ⟨g.map Prod.snd, List.mem_map_of_mem _ hg, List.mem_map_of_mem _ hxg,
          List.mem_map_of_mem _ hxg⟩
      | tail _ hbc ih =>
        obtain ⟨g, hg, hpg, hbg⟩ := ih hbc.1
        refine ⟨g, hg, hpg, ?_⟩
        simp only [groupPatternsByVariable, List.mem_map] at hg
        obtain ⟨g0, hg0, rfl⟩ := hg
        obtain ⟨y, hy, hyb⟩ := List.mem_map.1 hbg
        obtain ⟨z, hz, hzc⟩ := exists_enum_of_mem hbc.2.1
        have hy2 : y ∈ ps.enum := H.perm.subset (List.mem_flatten.2 ⟨g0, hg0, hy⟩)
        have hl : linked ps.enum y z := ⟨hy2, hz, by rw [hyb, hzc]; exact hbc.2.2⟩
        have := H.linked_same hl hg0 hy
        rw [← hzc]
        exact List.mem_map_of_mem _ this

/-! ## Term-wise equality is equality of values -/

theorem Term_Eq_iff_eq (a b : Term) : a.Eq b = true ↔ a = b := by
  cases a with
  | uri u =>
    cases b with
    | uri w =>
      cases u; cases w
      simp [Term.Eq, URI.Eq]
    | blank c => simp [Term.Eq, URI.Eq]
    | literal l => simp [Term.Eq, URI.Eq]
  | blank c =>
    cases b with
    | uri w => simp [Term.Eq, BlankNode.Eq]
    | blank d =>
      cases c; cases d
      simp [Term.Eq, BlankNode.Eq]
    | literal l => simp [Term.Eq, BlankNode.Eq]
  | literal l =>
    cases b with
    | uri w => simp [Term.Eq, Literal.Eq]
    | blank d => simp [Term.Eq, Literal.Eq]
    | literal k =>
      obtain ⟨v1, l1, ⟨d1⟩⟩ := l
      obtain ⟨v2, l2, ⟨d2⟩⟩ := k
      simp [Term.Eq, Literal.Eq, and_assoc]

theorem Subject_toTerm_inj {a b : Subject} (h : a.toTerm = b.toTerm) : a = b := by
  cases a <;> cases b <;> simp_all [Subject.toTerm]

theorem Triple_Eq_iff_eq (a b : Triple) : a.Eq b = true ↔ a = b := by
  obtain ⟨s1, p1, o1⟩ := a
  obtain ⟨s2, p2, o2⟩ := b
  have hp : p1.Eq (Term.uri p2) = true ↔ p1 = p2 := by
    have := Term_Eq_iff_eq (Term.uri p1) (Term.uri p2)
    simpa [Term.Eq] using this
  simp only [Triple.Eq, Bool.and_eq_true, Term_Eq_iff_eq, hp, Triple.mk.injEq]
  constructor
  · rintro ⟨⟨h1, h2⟩, h3⟩
    exact ⟨Subject_toTerm_inj h1, h2, h3⟩
  · rintro ⟨h1, h2, h3⟩
    exact ⟨⟨by rw [h1], h2⟩, h3⟩

theorem hasTriple_iff_mem (ts : List Triple) (t : Triple) : hasTriple ts t = true ↔ t ∈ ts := by
  simp only [hasTriple, List.any_eq_true, Triple_Eq_iff_eq]
  constructor
  · rintro ⟨s, hs, rfl⟩
    exact hs
  · intro h
    exact ⟨t, h, rfl⟩

/-! ## The pattern matcher -/

theorem extendsBindings_refl (e : Bindings) : extendsBindings e e := fun _ _ h => h

theorem extendsBindings_trans {e1 e2 e3 : Bindings} (h1 : extendsBindings e1 e2)
    (h2 : extendsBindings e2 e3) : extendsBindings e1 e3 :=
  fun v b h => h2 v b (h1 v b h)

theorem agrees_of_extends {σ : Assignment} {e1 e2 : Bindings} (h : extendsBindings e1 e2)
    (ha : agrees σ e2) : agrees σ e1 :=
  fun v b hv => ha v b (h v b hv)

theorem lookup_cons_ite {α β : Type} [DecidableEq α] (l : List (α × β)) (k w : α) (v : β) :
    List.lookup w ((k, v) :: l) = if w = k then some v else l.lookup w := by
  by_cases h : w = k
  · subst h
    simp [List.lookup]
  · have : (w == k) = false := by simpa using h
    simp [List.lookup, this, h]

/-- A successful `matchTerm` keeps the old bindings, and every assignment
that agrees with the new bindings satisfies the pattern term. -/
theorem matchTerm_sound {env env2 : Bindings} {n : Node} {t : Term}
    (h : matchTerm env n t = some env2) :
    extendsBindings env env2 ∧ ∀ σ : Assignment, agrees σ env2 → n.satisfiedBy σ t := by
  cases n with
  | uri u =>
    simp only [matchTerm] at h
    split at h
    · rename_i hu
      cases h
      exact ⟨extendsBindings_refl _, fun _ _ => hu⟩
    · cases h
  | blank b =>
    simp only [matchTerm] at h
    split at h
    · rename_i hu
      cases h
      exact ⟨extendsBindings_refl _, fun _ _ => hu⟩
    · cases h
  | literal l =>
    simp only [matchTerm] at h
    split at h
    · rename_i hu
      cases h
      exact ⟨extendsBindings_refl _, fun _ _ => hu⟩
    · cases h
  | var v =>
    simp only [matchTerm] at h
    split at h
    · rename_i bound hb
      split at h
      · rename_i hbt
        cases h
        refine ⟨extendsBindings_refl _, fun σ hσ => ?_⟩
        have h1 : σ v.id = bound := hσ _ _ hb
        have h2 : bound = t := (Term_Eq_iff_eq _ _).1 hbt
        simp only [Node.satisfiedBy]
        rw [h1, h2]
      · cases h
    · rename_i hb
      cases h
      constructor
      · intro w b hw
        rw [lookup_cons_ite]
        by_cases hwv : w = v.id
        · rw [hwv, hb] at hw
          cases hw
        · simp [hwv, hw]
      · intro σ hσ
        simp only [Node.satisfiedBy]
        apply hσ
        rw [lookup_cons_ite]
        simp

/-- An assignment that agrees with the bindings and satisfies the pattern term
makes `matchTerm` succeed, with bindings it still agrees with. -/
theorem matchTerm_complete {σ : Assignment} {env : Bindings} {n : Node} {t : Term}
    (ha : agrees σ env) (hs : n.satisfiedBy σ t) :
    ∃ env2, matchTerm env n t = some env2 ∧ agrees σ env2 := by
  cases n with
  | uri u =>
    simp only [Node.satisfiedBy] at hs
    exact ⟨env, by simp [matchTerm, hs], ha⟩
  | blank b =>
    simp only [Node.satisfiedBy] at hs
    exact ⟨env, by simp [matchTerm, hs], ha⟩
  | literal l =>
    simp only [Node.satisfiedBy] at hs
    exact ⟨env, by simp [matchTerm, hs], ha⟩
  | var v =>
    simp only [Node.satisfiedBy] at hs
    cases hb : env.lookup v.id with
    | some bound =>
      have h1 : σ v.id = bound := ha _ _ hb
      have h2 : bound.Eq t = true := (Term_Eq_iff_eq _ _).2 (by rw [← h1, hs])
      exact ⟨env, by simp [matchTerm, hb, h2], ha⟩
    | none =>
      refine ⟨(v.id, t) :: env, by simp [matchTerm, hb], ?_⟩
      intro w b hw
      rw [lookup_cons_ite] at hw
      by_cases hwv : w = v.id
      · simp only [hwv, ↓reduceIte, Option.some.injEq] at hw
        rw [hwv, hs, hw]
      · simp only [hwv, ↓reduceIte] at hw
        exact ha _ _ hw

theorem matchTriple_sound {env env2 : Bindings} {p : TriplePattern} {t : Triple}
    (h : matchTriple env p t = some env2) :
    extendsBindings env env2 ∧ ∀ σ : Assignment, agrees σ env2 → p.matchedBy σ t := by
  simp only [matchTriple] at h
  cases h1 : matchTerm env p.Subj t.Subj.toTerm with
  | none => simp [h1] at h
  | some e1 =>
    simp only [h1] at h
    cases h2 : matchTerm e1 p.Pred (Term.uri t.Pred) with
    | none => simp [h2] at h
    | some e2 =>
      simp only [h2] at h
      obtain ⟨x1, s1⟩ := matchTerm_sound h1
      obtain ⟨x2, s2⟩ := matchTerm_sound h2
      obtain ⟨x3, s3⟩ := matchTerm_sound h
      refine ⟨extendsBindings_trans x1 (extendsBindings_trans x2 x3), fun σ hσ => ?_⟩
      have hσ2 : agrees σ e2 := agrees_of_extends x3 hσ
      have hσ1 : agrees σ e1 := agrees_of_extends x2 hσ2
      exact ⟨s1 σ hσ1, s2 σ hσ2, s3 σ hσ⟩

theorem matchTriple_complete {σ : Assignment} {env : Bindings} {p : TriplePattern}
    {t : Triple} (ha : agrees σ env) (hs : p.matchedBy σ t) :
    ∃ env2, matchTriple env p t = some env2 ∧ agrees σ env2 := by
  obtain ⟨e1, h1, a1⟩ := matchTerm_complete ha hs.1
  obtain ⟨e2, h2, a2⟩ := matchTerm_complete a1 hs.2.1
  obtain ⟨e3, h3, a3⟩ := matchTerm_complete a2 hs.2.2
  exact ⟨e3, by simp [matchTriple, h1, h2, h3], a3⟩

theorem exists_agrees (env : Bindings) : ∃ σ : Assignment, agrees σ env :=
  ⟨fun v => (env.lookup v).getD (Term.uri { val := "" }), fun v b h => by simp [h]⟩

theorem mem_matchGroup_cons {g : List Triple} {env : Bindings} {path : List Triple}
    {p : TriplePattern} {rest : List TriplePattern} {t : Triple} :
    t ∈ matchGroup g env path (p :: rest) ↔
      ∃ s ∈ g, ∃ env2, matchTriple env p s = some env2 ∧
        t ∈ matchGroup g env2 (s :: path) rest := by
  simp only [matchGroup, List.mem_flatMap]
  constructor
  · rintro ⟨s, hs, ht⟩
    cases hm : matchTriple env p s with
    | none => simp [hm] at ht
    | some env2 =>
      simp only [hm] at ht
      exact ⟨s, hs, env2, hm, ht⟩
  · rintro ⟨s, hs, env2, hm, ht⟩
    exact ⟨s, hs, by simpa [hm] using ht⟩

/-- Every triple returned by the join of a group lies on a path of triples
matched under one assignment that satisfies the whole group. -/
theorem matchGroup_sound (g : List Triple) (t : Triple) (rest : List TriplePattern) :
    ∀ (env : Bindings) (path : List Triple), t ∈ matchGroup g env path rest →
      ∃ σ : Assignment, agrees σ env ∧ satisfiesGroup σ g rest ∧
        (t ∈ path ∨ (t ∈ g ∧ ∃ p ∈ rest, p.matchedBy σ t)) := by
  induction rest with
  | nil =>
    intro env path h
    obtain ⟨σ, hσ⟩ := exists_agrees env
    exact ⟨σ, hσ, by simp [satisfiesGroup], Or.inl (by simpa [matchGroup] using h)⟩
  | cons p rest ih =>
    intro env path h
    obtain ⟨s, hs, env2, hm, ht⟩ := mem_matchGroup_cons.1 h
    obtain ⟨σ, hσ, hsat, hcase⟩ := ih env2 (s :: path) ht
    obtain ⟨hext, hmatch⟩ := matchTriple_sound hm
    refine ⟨σ, agrees_of_extends hext hσ, ?_, ?_⟩
    · intro q hq
      rcases List.mem_cons.1 hq with rfl | hq
      · exact ⟨s, hs, hmatch σ hσ⟩
      · exact hsat q hq
    · rcases hcase with hin | ⟨htg, q, hq, hqm⟩
      · rcases List.mem_cons.1 hin with rfl | hin
        · exact Or.inr ⟨hs, p, List.mem_cons_self _ _, hmatch σ hσ⟩
        · exact Or.inl hin
      · exact Or.inr ⟨htg, q, List.mem_cons_of_mem _ hq, hqm⟩

/-- Every triple matched under an assignment that satisfies the whole group
is returned by the join of the group. -/
theorem matchGroup_complete (g : List Triple) (t : Triple) (σ : Assignment)
    (rest : List TriplePattern) :
    ∀ (env : Bindings) (path : List Triple), agrees σ env → satisfiesGroup σ g rest →
      (t ∈ path ∨ (t ∈ g ∧ ∃ p ∈ rest, p.matchedBy σ t)) →
      t ∈ matchGroup g env path rest := by
  induction rest with
  | nil =>
    intro env path _ _ h
    rcases h with h | ⟨_, p, hp, _⟩
    · simpa [matchGroup] using h
    · simp at hp
  | cons p rest ih =>
    intro env path ha hsat h
    have hsat2 : satisfiesGroup σ g rest := fun q hq => hsat q (List.mem_cons_of_mem _ hq)
    obtain ⟨s0, hs0, hm0⟩ := hsat p (List.mem_cons_self _ _)
    rw [mem_matchGroup_cons]
    rcases h with h | ⟨htg, q, hq, hqm⟩
    · obtain ⟨env2, hm, ha2⟩ := matchTriple_complete ha hm0
      exact ⟨s0, hs0, env2, hm, ih env2 (s0 :: path) ha2 hsat2
        (Or.inl (List.mem_cons_of_mem _ h))⟩
    · rcases List.mem_cons.1 hq with rfl | hq
      · obtain ⟨env2, hm, ha2⟩ := matchTriple_complete ha hqm
        exact ⟨t, htg, env2, hm, ih env2 (t :: path) ha2 hsat2
          (Or.inl (List.mem_cons_self _ _))⟩
      · obtain ⟨env2, hm, ha2⟩ := matchTriple_complete ha hm0
        exact ⟨s0, hs0, env2, hm, ih env2 (s0 :: path) ha2 hsat2
          (Or.inr ⟨htg, q, hq, hqm⟩)⟩

/-- C3: a triple is in `Where(G, ps)` exactly when it is a triple of `G` and
some variable assignment satisfies every pattern of one group of
`groupPatternsByVariable ps` against `G` and makes the triple the one matched
by a pattern of that group; so `Where(G, ps)` is a subset of `G`. -/
theorem Where_iff (G : Graph) (ps : List TriplePattern) (t : Triple) :
    (t ∈ (G.Where ps).triples ↔
      t ∈ G.triples ∧ ∃ grp ∈ groupPatternsByVariable ps, ∃ σ : Assignment,
        satisfiesGroup σ G.triples grp ∧ ∃ p ∈ grp, p.matchedBy σ t) ∧
    (t ∈ (G.Where ps).triples → t ∈ G.triples) := by
  have key : t ∈ (G.Where ps).triples ↔
      t ∈ G.triples ∧ ∃ grp ∈ groupPatternsByVariable ps, ∃ σ : Assignment,
        satisfiesGroup σ G.triples grp ∧ ∃ p ∈ grp, p.matchedBy σ t := by
    simp only [Graph.Where, Graph.new, List.mem_dedup, List.mem_flatMap]
    constructor
    · rintro ⟨grp, hgrp, ht⟩
      obtain ⟨σ, _, hsat, hcase⟩ := matchGroup_sound G.triples t grp [] [] ht
      rcases hcase with h | ⟨htg, p, hp, hpm⟩
      · simp at h
      · exact ⟨htg, grp, hgrp, σ, hsat, p, hp, hpm⟩
    · rintro ⟨htg, grp, hgrp, σ, hsat, p, hp, hpm⟩
      refine ⟨grp, hgrp, matchGroup_complete G.triples t σ grp [] [] ?_ hsat
        (Or.inr ⟨htg, p, hp, hpm⟩)⟩
      intro v b h
      simp at h
  exact ⟨key, fun h => (key.1 h).1⟩

/-! ## Graph equality: renaming and blank nodes -/

theorem mem_blankNodesOf {ts : List Triple} {x : BlankNode} :
    x ∈ blankNodesOf ts ↔ ∃ t ∈ ts, x ∈ t.blankNodes := by
  simp [blankNodesOf, List.mem_dedup, List.mem_flatMap]

theorem blankNodesOf_nodup (ts : List Triple) : (blankNodesOf ts).Nodup :=
  List.nodup_dedup _

theorem isGround_iff (t : Triple) : t.isGround = true ↔ t.blankNodes = [] := by
  simp [Triple.isGround, List.isEmpty_iff]

theorem mem_blankNodesOf_nonGround {ts : List Triple} {x : BlankNode} :
    x ∈ blankNodesOf (ts.filter (fun t => !t.isGround)) ↔ x ∈ blankNodesOf ts := by
  simp only [mem_blankNodesOf, List.mem_filter]
  constructor
  · rintro ⟨t, ⟨ht, _⟩, hx⟩
    exact ⟨t, ht, hx⟩
  · rintro ⟨t, ht, hx⟩
    refine ⟨t, ⟨ht, ?_⟩, hx⟩
    have : t.isGround = false := by
      cases h : t.isGround
      · rfl
      · rw [(isGround_iff t).1 h] at hx
        simp at hx
    simp [this]

theorem Term_blankNodes_rename (f : BlankNode → BlankNode) (t : Term) :
    (t.rename f).blankNodes = t.blankNodes.map f := by
  cases t <;> simp [Term.rename, Term.blankNodes]

theorem Subject_toTerm_rename (f : BlankNode → BlankNode) (s : Subject) :
    (s.rename f).toTerm = s.toTerm.rename f := by
  cases s <;> simp [Subject.rename, Subject.toTerm, Term.rename]

theorem Triple_blankNodes_rename (f : BlankNode → BlankNode) (t : Triple) :
    (t.rename f).blankNodes = t.blankNodes.map f := by
  simp [Triple.blankNodes, Triple.rename, Subject_toTerm_rename, Term_blankNodes_rename]

theorem Triple_isGround_rename (f : BlankNode → BlankNode) (t : Triple) :
    (t.rename f).isGround = t.isGround := by
  simp only [Triple.isGround, Triple_blankNodes_rename]
  cases t.blankNodes <;> rfl

theorem Term_rename_congr {f g : BlankNode → BlankNode} {t : Term}
    (h : ∀ x ∈ t.blankNodes, f x = g x) : t.rename f = t.rename g := by
  cases t with
  | blank b => simp [Term.rename, h b (by simp [Term.blankNodes])]
  | uri u => rfl
  | literal l => rfl

theorem Subject_rename_congr {f g : BlankNode → BlankNode} {s : Subject}
    (h : ∀ x ∈ s.toTerm.blankNodes, f x = g x) : s.rename f = s.rename g := by
  cases s with
  | blank b => simp [Subject.rename, h b (by simp [Subject.toTerm, Term.blankNodes])]
  | uri u => rfl

theorem Triple_rename_congr {f g : BlankNode → BlankNode} {t : Triple}
    (h : ∀ x ∈ t.blankNodes, f x = g x) : t.rename f = t.rename g := by
  have h1 : t.Subj.rename f = t.Subj.rename g :=
    Subject_rename_congr (fun x hx => h x (by simp [Triple.blankNodes, hx]))
  have h2 : t.Obj.rename f = t.Obj.rename g :=
    Term_rename_congr (fun x hx => h x (by simp [Triple.blankNodes, hx]))
  simp [Triple.rename, h1, h2]

theorem Triple_rename_ground (f : BlankNode → BlankNode) {t : Triple}
    (h : t.isGround = true) : t.rename f = t := by
  have h0 := (isGround_iff t).1 h
  have h1 : t.rename f = t.rename id :=
    Triple_rename_congr (fun x hx => by rw [h0] at hx; simp at hx)
  rw [h1]
  obtain ⟨s, p, o⟩ := t
  cases s <;> cases o <;> rfl

theorem Term_rename_inj {f : BlankNode → BlankNode} {S : BlankNode → Prop}
    (hf : ∀ x, S x → ∀ y, S y → f x = f y → x = y) {s t : Term}
    (hs : ∀ x ∈ s.blankNodes, S x) (ht : ∀ x ∈ t.blankNodes, S x)
    (h : s.rename f = t.rename f) : s = t := by
  cases s with
  | blank b =>
    cases t with
    | blank c =>
      simp only [Term.rename, Term.blank.injEq] at h
      have := hf b (hs b (by simp [Term.blankNodes])) c (ht c (by simp [Term.blankNodes])) h
      rw [this]
    | uri u => simp [Term.rename] at h
    | literal l => simp [Term.rename] at h
  | uri u =>
    cases t <;> simp_all [Term.rename]
  | literal l =>
    cases t <;> simp_all [Term.rename]

theorem Triple_rename_inj {f : BlankNode → BlankNode} {S : BlankNode → Prop}
    (hf : ∀ x, S x → ∀ y, S y → f x = f y → x = y) {s t : Triple}
    (hs : ∀ x ∈ s.blankNodes, S x) (ht : ∀ x ∈ t.blankNodes, S x)
    (h : s.rename f = t.rename f) : s = t := by
  obtain ⟨s1, p1, o1⟩ := s
  obtain ⟨s2, p2, o2⟩ := t
  simp only [Triple.rename, Triple.mk.injEq] at h
  obtain ⟨h1, h2, h3⟩ := h
  have e1 : s1.toTerm = s2.toTerm := by
    apply Term_rename_inj hf (fun x hx => hs x (by simp [Triple.blankNodes, hx]))
      (fun x hx => ht x (by simp [Triple.blankNodes, hx]))
    rw [← Subject_toTerm_rename, ← Subject_toTerm_rename, h1]
  have e3 : o1 = o2 :=
    Term_rename_inj hf (fun x hx => hs x (by simp [Triple.blankNodes, hx]))
      (fun x hx => ht x (by simp [Triple.blankNodes, hx])) h3
  rw [Subject_toTerm_inj e1, h2, e3]

theorem sameTriples_iff (xs ys : List Triple) :
    sameTriples xs ys = true ↔ ∀ t, t ∈ xs ↔ t ∈ ys := by
  simp only [sameTriples, Bool.and_eq_true, List.all_eq_true, hasTriple_iff_mem]
  constructor
  · rintro ⟨h1, h2⟩ t
    exact ⟨h1 t, h2 t⟩
  · intro h
    exact ⟨fun t ht => (h t).1 ht, fun t ht => (h t).2 ht⟩

/-! ## Graph equality: a successful search yields a bijection -/

theorem lookup_of_mem_nodupKeys {α β : Type} [DecidableEq α] :
    ∀ (m : List (α × β)), (m.map Prod.fst).Nodup → ∀ k v, (k, v) ∈ m → m.lookup k = some v := by
  intro m
  induction m with
  | nil => intro _ k v h; simp at h
  | cons e rest ih =>
    intro hnd k v hmem
    obtain ⟨k0, v0⟩ := e
    simp only [List.map_cons, List.nodup_cons] at hnd
    rw [lookup_cons_ite]
    rcases List.mem_cons.1 hmem with heq | hin
    · simp only [Prod.mk.injEq] at heq
      simp [heq.1, heq.2]
    · have hne : k ≠ k0 := by
        rintro rfl
        exact hnd.1 (List.mem_map_of_mem Prod.fst hin)
      simp only [hne, ↓reduceIte]
      exact ih hnd.2 k v hin

theorem applyMapping_of_mem {m : List (BlankNode × BlankNode)} (hnd : (m.map Prod.fst).Nodup)
    {k v : BlankNode} (h : (k, v) ∈ m) : applyMapping m k = v := by
  simp [applyMapping, lookup_of_mem_nodupKeys m hnd k v h]

/-- A successful search commits, for the blank nodes still to process, images
in `bb` that are pairwise distinct and distinct from the images committed
before, and the full candidate passes the verification. -/
theorem searchBijection_sound (na nb : List Triple) (bb : List BlankNode)
    (todo : List BlankNode) :
    ∀ m : List (BlankNode × BlankNode), (m.map Prod.snd).Nodup →
      searchBijection na nb bb todo m = true →
      ∃ m2 : List (BlankNode × BlankNode), verifyMapping na nb m2 = true ∧
        (m2.map Prod.snd).Nodup ∧ m2.map Prod.fst = todo.reverse ++ m.map Prod.fst ∧
        ∀ e ∈ m2, e ∈ m ∨ e.2 ∈ bb := by
  induction todo with
  | nil =>
    intro m hnd h
    exact ⟨m, by simpa [searchBijection] using h, hnd, by simp, fun e he => Or.inl he⟩
  | cons x rest ih =>
    intro m hnd h
    simp only [searchBijection, List.any_eq_true, Bool.and_eq_true, Bool.not_eq_true',
      List.any_eq_false, beq_iff_eq, decide_eq_true_eq] at h
    obtain ⟨y, hy, ⟨hfresh, _⟩, hrec⟩ := h
    have hnd2 : (((x, y) :: m).map Prod.snd).Nodup := by
      simp only [List.map_cons, List.nodup_cons]
      refine ⟨?_, hnd⟩
      intro hmem
      obtain ⟨e, he, hey⟩ := List.mem_map.1 hmem
      exact hfresh e he hey
    obtain ⟨m2, hv, hn, hk, hmem⟩ := ih ((x, y) :: m) hnd2 hrec
    refine ⟨m2, hv, hn, by simp [hk], ?_⟩
    intro e he
    rcases hmem e he with h1 | h1
    · rcases List.mem_cons.1 h1 with rfl | h2
      · exact Or.inr hy
      · exact Or.inl h2
    · exact Or.inr h1

theorem mapping_bijOn {m : List (BlankNode × BlankNode)} {ba bb : List BlankNode}
    (hk : m.map Prod.fst = ba.reverse) (hba : ba.Nodup) (hv : (m.map Prod.snd).Nodup)
    (hin : ∀ e ∈ m, e.2 ∈ bb) (hlen : ba.length = bb.length) :
    Set.BijOn (applyMapping m) {x | x ∈ ba} {y | y ∈ bb} := by
  have hkn : (m.map Prod.fst).Nodup := by
    rw [hk]
    exact List.nodup_reverse.2 hba
  have hkey : ∀ x, x ∈ ba ↔ ∃ v, (x, v) ∈ m := by
    intro x
    have : x ∈ ba ↔ x ∈ m.map Prod.fst := by rw [hk]; simp
    rw [this, List.mem_map]
    constructor
    · rintro ⟨e, he, rfl⟩
      exact ⟨e.2, he⟩
    · rintro ⟨v, h⟩
      exact ⟨(x, v), h, rfl⟩
  have hvals : (m.map Prod.snd).Perm bb := by
    apply List.Subperm.perm_of_length_le
    · apply List.subperm_of_subset hv
      intro y hy
      obtain ⟨e, he, rfl⟩ := List.mem_map.1 hy
      exact hin e he
    · have h1 : (m.map Prod.snd).length = (m.map Prod.fst).length := by simp
      rw [h1, hk, List.length_reverse, hlen]
  refine ⟨?_, ?_, ?_⟩
  · intro x hx
    obtain ⟨v, h⟩ := (hkey x).1 hx
    show applyMapping m x ∈ bb
    rw [applyMapping_of_mem hkn h]
    exact hin _ h
  · intro x hx y hy hxy
    obtain ⟨v, h1⟩ := (hkey x).1 hx
    obtain ⟨w, h2⟩ := (hkey y).1 hy
    rw [applyMapping_of_mem hkn h1, applyMapping_of_mem hkn h2] at hxy
    have := List.inj_on_of_nodup_map hv h1 h2 hxy
    exact (Prod.mk.inj this).1
  · intro y hy
    have hy2 : y ∈ m.map Prod.snd := hvals.mem_iff.2 hy
    obtain ⟨e, he, rfl⟩ := List.mem_map.1 hy2
    refine ⟨e.1, (hkey e.1).2 ⟨e.2, he⟩, ?_⟩
    exact applyMapping_of_mem hkn he

theorem bijOn_blankNodes_congr {f : BlankNode → BlankNode} {a b : List Triple} :
    Set.BijOn f {x | x ∈ blankNodesOf (a.filter (fun t => !t.isGround))}
        {y | y ∈ blankNodesOf (b.filter (fun t => !t.isGround))} ↔
      Set.BijOn f {x | x ∈ blankNodesOf a} {y | y ∈ blankNodesOf b} := by
  have h1 : {x | x ∈ blankNodesOf (a.filter (fun t => !t.isGround))} =
      {x | x ∈ blankNodesOf a} := by
    ext x; exact mem_blankNodesOf_nonGround
  have h2 : {x | x ∈ blankNodesOf (b.filter (fun t => !t.isGround))} =
      {x | x ∈ blankNodesOf b} := by
    ext x; exact mem_blankNodesOf_nonGround
  rw [h1, h2]

theorem mem_split_ground (ts : List Triple) (t : Triple) :
    t ∈ ts ↔ t ∈ ts.filter Triple.isGround ∨ t ∈ ts.filter (fun t => !t.isGround) := by
  simp only [List.mem_filter]
  cases h : t.isGround <;> simp

/-- The contract from ground and non-ground parts: if the ground triples agree
and renaming the non-ground triples of `a` gives the non-ground triples of
`b`, then renaming all of `a` gives all of `b`. -/
theorem rename_image_of_parts {f : BlankNode → BlankNode} {a b : List Triple}
    (hg : ∀ t, t ∈ a.filter Triple.isGround ↔ t ∈ b.filter Triple.isGround)
    (hn : ∀ t, t ∈ (a.filter (fun t => !t.isGround)).map (Triple.rename f) ↔
      t ∈ b.filter (fun t => !t.isGround)) (t : Triple) :
    t ∈ b ↔ ∃ s ∈ a, s.rename f = t := by
  rw [mem_split_ground b t, ← hg t, ← hn t]
  constructor
  · rintro (h | h)
    · have h2 := List.mem_filter.1 h
      exact ⟨t, h2.1, Triple_rename_ground f h2.2⟩
    · obtain ⟨s, hs, rfl⟩ := List.mem_map.1 h
      exact ⟨s, (List.mem_filter.1 hs).1, rfl⟩
  · rintro ⟨s, hs, rfl⟩
    cases hgs : s.isGround
    · right
      exact List.mem_map_of_mem _ (List.mem_filter.2 ⟨hs, by simp [hgs]⟩)
    · left
      rw [Triple_rename_ground f hgs]
      exact List.mem_filter.2 ⟨hs, hgs⟩

theorem Graph_Eq_sound (a b : Graph) (h : a.Eq b = true) :
    ∃ f : BlankNode → BlankNode,
      Set.BijOn f {x | x ∈ blankNodesOf a.triples} {y | y ∈ blankNodesOf b.triples} ∧
      ∀ t, t ∈ b.triples ↔ ∃ s ∈ a.triples, s.rename f = t := by
  simp only [Graph.Eq] at h
  split at h
  · cases h
  split at h
  · cases h
  rename_i _ hground
  split at h
  · cases h
  rename_i hlen
  have hground2 : sameTriples (a.triples.filter Triple.isGround)
      (b.triples.filter Triple.isGround) = true := by simpa using hground
  have hlen2 : (blankNodesOf (a.triples.filter (fun t => !t.isGround))).length =
      (blankNodesOf (b.triples.filter (fun t => !t.isGround))).length := by simpa using hlen
  obtain ⟨m, hv, hn, hk, hmem⟩ := searchBijection_sound _ _ _ _ [] (by simp) h
  simp only [List.map_nil, List.append_nil] at hk
  have hbij := mapping_bijOn hk (blankNodesOf_nodup _) hn
    (fun e he => by
      rcases hmem e he with h1 | h1
      · simp at h1
      · exact h1) hlen2
  refine ⟨applyMapping m, bijOn_blankNodes_congr.1 hbij, ?_⟩
  exact rename_image_of_parts ((sameTriples_iff _ _).1 hground2)
    ((sameTriples_iff _ _).1 hv)

/-! ## Graph equality: a bijection makes the search succeed -/

theorem BlankNode_Eq_rename {f : BlankNode → BlankNode} {S : BlankNode → Prop}
    (hf : ∀ x, S x → ∀ y, S y → f x = f y → x = y) {x : BlankNode} (hx : S x) {u : Term}
    (hu : ∀ c ∈ u.blankNodes, S c) : (f x).Eq (u.rename f) = x.Eq u := by
  cases u with
  | blank c =>
    have hc : S c := hu c (by simp [Term.blankNodes])
    rw [Bool.eq_iff_iff]
    have h1 := Term_Eq_iff_eq (Term.blank (f x)) (Term.blank (f c))
    have h2 := Term_Eq_iff_eq (Term.blank x) (Term.blank c)
    simp only [Term.Eq, Term.blank.injEq] at h1 h2
    simp only [Term.rename]
    rw [h1, h2]
    exact ⟨fun h => hf x hx c hc h, fun h => by rw [h]⟩
  | uri u => rfl
  | literal l => rfl

theorem Term_kind_rename (f : BlankNode → BlankNode) (u : Term) : (u.rename f).kind = u.kind := by
  cases u <;> rfl

theorem signature_map_rename {f : BlankNode → BlankNode} {S : BlankNode → Prop}
    (hf : ∀ x, S x → ∀ y, S y → f x = f y → x = y) {x : BlankNode} (hx : S x)
    (ts : List Triple) (hts : ∀ t ∈ ts, ∀ c ∈ t.blankNodes, S c) :
    signature (ts.map (Triple.rename f)) (f x) = signature ts x := by
  simp only [signature, List.flatMap_map]
  apply List.flatMap_congr
  intro t ht
  have hs : ∀ c ∈ t.Subj.toTerm.blankNodes, S c := fun c hc =>
    hts t ht c (by simp [Triple.blankNodes, hc])
  have ho : ∀ c ∈ t.Obj.blankNodes, S c := fun c hc =>
    hts t ht c (by simp [Triple.blankNodes, hc])
  have e1 : (f x).Eq (t.rename f).Subj.toTerm = x.Eq t.Subj.toTerm := by
    simp only [Triple.rename, Subject_toTerm_rename]
    exact BlankNode_Eq_rename hf hx hs
  have e2 : (f x).Eq (t.rename f).Obj = x.Eq t.Obj := by
    simp only [Triple.rename]
    exact BlankNode_Eq_rename hf hx ho
  have e3 : (t.rename f).Obj.kind = t.Obj.kind := by
    simp only [Triple.rename, Term_kind_rename]
  have e4 : (t.rename f).Subj.toTerm.kind = t.Subj.toTerm.kind := by
    simp only [Triple.rename, Subject_toTerm_rename, Term_kind_rename]
  have e5 : (t.rename f).Pred = t.Pred := rfl
  rw [e1, e2, e3, e4, e5]

theorem signature_perm {ts us : List Triple} (h : ts.Perm us) (x : BlankNode) :
    (signature ts x).Perm (signature us x) :=
  List.Perm.flatMap_right _ h

theorem lookup_of_agree {f : BlankNode → BlankNode} :
    ∀ (m : List (BlankNode × BlankNode)), (∀ e ∈ m, e.2 = f e.1) →
      ∀ x, x ∈ m.map Prod.fst → applyMapping m x = f x := by
  intro m
  induction m with
  | nil => intro _ x hx; simp at hx
  | cons e rest ih =>
    intro hag x hx
    obtain ⟨k, v⟩ := e
    simp only [applyMapping]
    rw [lookup_cons_ite]
    by_cases hxk : x = k
    · have := hag (k, v) (List.mem_cons_self _ _)
      simp only at this
      simp [hxk, this]
    · simp only [hxk, ↓reduceIte]
      have hx2 : x ∈ rest.map Prod.fst := by
        simp only [List.map_cons, List.mem_cons] at hx
        rcases hx with h | h
        · exact absurd h hxk
        · exact h
      exact ih (fun e he => hag e (List.mem_cons_of_mem _ he)) x hx2

/-- Following a bijection `f` that passes the verification, the search
succeeds from every state whose committed mappings are those of `f`. -/
theorem searchBijection_complete (na nb : List Triple) (ba bb : List BlankNode)
    (f : BlankNode → BlankNode)
    (hinj : ∀ x ∈ ba, ∀ y ∈ ba, f x = f y → x = y)
    (hmaps : ∀ x ∈ ba, f x ∈ bb)
    (hsig : ∀ x ∈ ba, (signature na x).Perm (signature nb (f x)))
    (hver : ∀ m, (∀ x ∈ ba, applyMapping m x = f x) → verifyMapping na nb m = true)
    (todo : List BlankNode) :
    ∀ m : List (BlankNode × BlankNode), todo.Nodup → (∀ x ∈ todo, x ∈ ba) →
      (∀ e ∈ m, e.1 ∈ ba ∧ e.2 = f e.1) → (∀ x ∈ todo, ∀ e ∈ m, e.1 ≠ x) →
      (∀ x ∈ ba, x ∈ todo ∨ x ∈ m.map Prod.fst) →
      searchBijection na nb bb todo m = true := by
  induction todo with
  | nil =>
    intro m _ _ hag _ hcov
    simp only [searchBijection]
    apply hver
    intro x hx
    rcases hcov x hx with h | h
    · simp at h
    · exact lookup_of_agree m (fun e he => (hag e he).2) x h
  | cons x rest ih =>
    intro m hnd hsub hag hfresh hcov
    have hx : x ∈ ba := hsub x (List.mem_cons_self _ _)
    simp only [List.nodup_cons] at hnd
    simp only [searchBijection, List.any_eq_true, Bool.and_eq_true, Bool.not_eq_true',
      List.any_eq_false, beq_iff_eq, decide_eq_true_eq]
    refine ⟨f x, hmaps x hx, ⟨?_, hsig x hx⟩, ?_⟩
    · intro e he hey
      have h1 := hag e he
      have : e.1 = x := hinj e.1 h1.1 x hx (by rw [← h1.2, hey])
      exact hfresh x (List.mem_cons_self _ _) e he this
    · apply ih ((x, f x) :: m) hnd.2 (fun y hy => hsub y (List.mem_cons_of_mem _ hy))
      · intro e he
        rcases List.mem_cons.1 he with rfl | he
        · exact ⟨hx, rfl⟩
        · exact hag e he
      · intro y hy e he
        rcases List.mem_cons.1 he with rfl | he
        · intro h
          simp only at h
          rw [← h] at hy
          exact hnd.1 hy
        · exact hfresh y (List.mem_cons_of_mem _ hy) e he
      · intro y hy
        rcases hcov y hy with h | h
        · rcases List.mem_cons.1 h with rfl | h
          · right; simp
          · left; exact h
        · right
          simp only [List.map_cons, List.mem_cons]
          exact Or.inr h

theorem Graph_Eq_complete (a b : Graph) (f : BlankNode → BlankNode)
    (hbij : Set.BijOn f {x | x ∈ blankNodesOf a.triples} {y | y ∈ blankNodesOf b.triples})
    (himg : ∀ t, t ∈ b.triples ↔ ∃ s ∈ a.triples, s.rename f = t) : a.Eq b = true := by
  have hinjA : ∀ x, x ∈ blankNodesOf a.triples → ∀ y, y ∈ blankNodesOf a.triples →
      f x = f y → x = y := fun x hx y hy h => hbij.injOn hx hy h
  have hmemA : ∀ t ∈ a.triples, ∀ c ∈ t.blankNodes, c ∈ blankNodesOf a.triples :=
    fun t ht c hc => mem_blankNodesOf.2 ⟨t, ht, hc⟩
  -- renaming the triples of `a` gives a rearrangement of the triples of `b`
  have hperm : (a.triples.map (Triple.rename f)).Perm b.triples := by
    rw [List.perm_ext_iff_of_nodup _ b.nodup]
    · intro t
      rw [himg t, List.mem_map]
    · apply List.Nodup.map_on _ a.nodup
      intro s hs t ht hst
      exact Triple_rename_inj hinjA (hmemA s hs) (hmemA t ht) hst
  have hfilter : ∀ p : Triple → Bool, (∀ t, p (t.rename f) = p t) →
      ((a.triples.filter p).map (Triple.rename f)).Perm (b.triples.filter p) := by
    intro p hp
    have h1 := List.Perm.filter p hperm
    rw [List.filter_map] at h1
    have h2 : (p ∘ Triple.rename f) = p := funext hp
    rw [h2] at h1
    exact h1
  have hground : (a.triples.filter Triple.isGround).Perm (b.triples.filter Triple.isGround) := by
    have h1 := hfilter Triple.isGround (Triple_isGround_rename f)
    have h2 : (a.triples.filter Triple.isGround).map (Triple.rename f) =
        a.triples.filter Triple.isGround := by
      conv_rhs => rw [← List.map_id (a.triples.filter Triple.isGround)]
      apply List.map_congr_left
      intro t ht
      exact Triple_rename_ground f (List.mem_filter.1 ht).2
    rw [h2] at h1
    exact h1
  have hnon := hfilter (fun t => !t.isGround) (fun t => by simp [Triple_isGround_rename])
  have hbij2 := bijOn_blankNodes_congr.2 hbij
  set na := a.triples.filter (fun t => !t.isGround) with hna
  set nb := b.triples.filter (fun t => !t.isGround) with hnb
  have hinj : ∀ x ∈ blankNodesOf na, ∀ y ∈ blankNodesOf na, f x = f y → x = y :=
    fun x hx y hy h => hbij2.injOn hx hy h
  have hmaps : ∀ x ∈ blankNodesOf na, f x ∈ blankNodesOf nb := fun x hx => hbij2.mapsTo hx
  have hbperm : ((blankNodesOf na).map f).Perm (blankNodesOf nb) := by
    rw [List.perm_ext_iff_of_nodup _ (blankNodesOf_nodup _)]
    · intro y
      rw [List.mem_map]
      constructor
      · rintro ⟨x, hx, rfl⟩
        exact hmaps x hx
      · intro hy
        obtain ⟨x, hx, hxy⟩ := hbij2.surjOn hy
        exact ⟨x, hx, hxy⟩
    · exact List.Nodup.map_on hinj (blankNodesOf_nodup _)
  have hmemN : ∀ t ∈ na, ∀ c ∈ t.blankNodes, c ∈ blankNodesOf na :=
    fun t ht c hc => mem_blankNodesOf.2 ⟨t, ht, hc⟩
  have hsig : ∀ x ∈ blankNodesOf na, (signature na x).Perm (signature nb (f x)) := by
    intro x hx
    have h1 := @signature_map_rename f (fun c => c ∈ blankNodesOf na) hinj x hx na hmemN
    rw [← h1]
    exact signature_perm hnon (f x)
  have hver : ∀ m, (∀ x ∈ blankNodesOf na, applyMapping m x = f x) →
      verifyMapping na nb m = true := by
    intro m hm
    simp only [verifyMapping]
    rw [sameTriples_iff]
    intro t
    have h1 : na.map (Triple.rename (applyMapping m)) = na.map (Triple.rename f) := by
      apply List.map_congr_left
      intro s hs
      exact Triple_rename_congr (fun c hc => hm c (hmemN s hs c hc))
    rw [h1]
    exact hnon.mem_iff
  have hsearch := searchBijection_complete na nb (blankNodesOf na) (blankNodesOf nb) f
    hinj hmaps hsig hver (blankNodesOf na) [] (blankNodesOf_nodup _) (fun x hx => hx)
    (by simp) (by simp) (fun x hx => Or.inl hx)
  have hlenT : a.triples.length = b.triples.length := by
    have := hperm.length_eq
    simpa using this
  have hlenB : (blankNodesOf na).length = (blankNodesOf nb).length := by
    have := hbperm.length_eq
    simpa using this
  have hsame : sameTriples (a.triples.filter Triple.isGround)
      (b.triples.filter Triple.isGround) = true := by
    rw [sameTriples_iff]
    intro t
    exact hground.mem_iff
  simp only [Graph.Eq, hlenT, ne_eq, not_true_eq_false, ↓reduceIte, hsame, Bool.not_true,
    Bool.false_eq_true]
  rw [← hna, ← hnb]
  simp only [hlenB, not_true_eq_false, ↓reduceIte]
  exact hsearch

/-- C1: `Graph.Eq(A, B)` is true exactly when some bijection from the blank
nodes of `A` onto the blank nodes of `B` maps the triples of `A` onto exactly
the triple set of `B`, the triples compared position by position with the
`Eq` methods of their terms. -/
theorem Graph_Eq_iff_bijection (a b : Graph) :
    a.Eq b = true ↔ ∃ f : BlankNode → BlankNode,
      Set.BijOn f {x | x ∈ blankNodesOf a.triples} {y | y ∈ blankNodesOf b.triples} ∧
      sameTriples (a.triples.map (Triple.rename f)) b.triples = true := by
  have key : ∀ f : BlankNode → BlankNode,
      sameTriples (a.triples.map (Triple.rename f)) b.triples = true ↔
        ∀ t, t ∈ b.triples ↔ ∃ s ∈ a.triples, s.rename f = t := by
    intro f
    rw [sameTriples_iff]
    constructor
    · intro h t
      rw [← h t, List.mem_map]
    · intro h t
      rw [h t, List.mem_map]
  constructor
  · intro h
    obtain ⟨f, hbij, himg⟩ := Graph_Eq_sound a b h
    exact ⟨f, hbij, (key f).2 himg⟩
  · rintro ⟨f, hbij, himg⟩
    exact Graph_Eq_complete a b f hbij ((key f).1 himg)

/-! ## The models on inputs of the repository's tests -/

/-- Witness for C1: the two test graphs that differ in the name of their blank
node are `Eq`, so a bijection of their blank nodes maps one onto the other. -/
theorem Graph_Eq_iff_bijection_witness :
    ∃ f : BlankNode → BlankNode,
      Set.BijOn f {x | x ∈ blankNodesOf testGraphA.triples}
        {y | y ∈ blankNodesOf testGraphB.triples} ∧
      sameTriples (testGraphA.triples.map (Triple.rename f)) testGraphB.triples = true :=
  (Graph_Eq_iff_bijection testGraphA testGraphB).1 (by decide)

/-- Witness for C3: the triple returned for the query `(?x, p, "xyz")` on the
test graph is a triple of the graph matched under a satisfying assignment. -/
theorem Where_iff_witness :
    ({ Subj := .blank { id := "a" }, Pred := { val := "p" },
       Obj := .literal (NewStrLiteral "xyz") } : Triple) ∈ testGraphA.triples ∧
    ∃ grp ∈ groupPatternsByVariable testQuery, ∃ σ : Assignment,
      satisfiesGroup σ testGraphA.triples grp ∧ ∃ p ∈ grp, p.matchedBy σ
        { Subj := .blank { id := "a" }, Pred := { val := "p" },
          Obj := .literal (NewStrLiteral "xyz") } :=
  (Where_iff testGraphA testQuery _).1.1 (by decide)

/-- Witness for C4: the grouping of the four test patterns is a rearrangement
of them, and it is the grouping the test expects. -/
theorem groupPatternsByVariable_partition_witness :
    (groupPatternsByVariable testPatterns).flatten.Perm testPatterns ∧
    groupPatternsByVariable testPatterns =
      [testPatterns.take 3, testPatterns.drop 3] :=
  ⟨(groupPatternsByVariable_partition testPatterns).1, by decide⟩

/-! ## Term equality as a relation -/

/-- C15: `Eq` is an equivalence relation on terms: every term is `Eq` to
itself, `a.Eq(b)` and `b.Eq(a)` agree, and `a.Eq(b)` with `b.Eq(c)` gives
`a.Eq(c)`. -/
theorem Term_Eq_equivalence (a b c : Term) :
    a.Eq a = true ∧ a.Eq b = b.Eq a ∧ (a.Eq b = true → b.Eq c = true → a.Eq c = true) := by
  refine ⟨(Term_Eq_iff_eq a a).2 rfl, ?_, ?_⟩
  · rw [Bool.eq_iff_iff, Term_Eq_iff_eq, Term_Eq_iff_eq]
    exact eq_comm
  · intro h1 h2
    rw [Term_Eq_iff_eq] at h1 h2 ⊢
    exact h1.trans h2

/-- C16: two terms of different kinds are never `Eq`, in either direction,
whatever their contents. -/
theorem Term_Eq_kinds (a b : Term) (h : a.kind ≠ b.kind) :
    a.Eq b = false ∧ b.Eq a = false := by
  cases a <;> cases b <;>
    first
    | exact absurd rfl h
    | exact ⟨rfl, rfl⟩

/-- Witness for C16: the URI, the blank node and the literal built from the
string `x` are pairwise not `Eq`, in both directions. -/
theorem Term_Eq_kinds_witness :
    ((Term.uri { val := "x" }).Eq (Term.blank { id := "x" }) = false ∧
      (Term.blank { id := "x" }).Eq (Term.uri { val := "x" }) = false) ∧
    ((Term.uri { val := "x" }).Eq (Term.literal (NewStrLiteral "x")) = false ∧
      (Term.literal (NewStrLiteral "x")).Eq (Term.uri { val := "x" }) = false) ∧
    ((Term.blank { id := "x" }).Eq (Term.literal (NewStrLiteral "x")) = false ∧
      (Term.literal (NewStrLiteral "x")).Eq (Term.blank { id := "x" }) = false) :=
  ⟨Term_Eq_kinds _ _ (by decide), Term_Eq_kinds _ _ (by decide), Term_Eq_kinds _ _ (by decide)⟩

/-! ## Printing literals -/

/-- C14: `l.String()` is the quoted value followed by `@` and the language
tag when the tag is not empty; otherwise the quoted value alone when the
datatype is `http://www.w3.org/2001/XMLSchema#string`; otherwise the quoted
value followed by `^^<`, the datatype identifier and `>`. -/
theorem Literal_String_cases (quote : String → String) (l : Literal) :
    (l.lang ≠ "" → l.String quote = quote l.val ++ "@" ++ l.lang) ∧
    (l.lang = "" → l.dt.val = "http://www.w3.org/2001/XMLSchema#string" →
      l.String quote = quote l.val) ∧
    (l.lang = "" → l.dt.val ≠ "http://www.w3.org/2001/XMLSchema#string" →
      l.String quote = quote l.val ++ "^^<" ++ l.dt.val ++ ">") := by
  refine ⟨?_, ?_, ?_⟩
  · intro h
    simp [Literal.String, h]
  · intro h1 h2
    simp [Literal.String, h1, h2]
  · intro h1 h2
    have e : ("^^" : String) ++ "<" = "^^<" := by decide
    simp only [Literal.String, h1, h2, URI.String, ne_eq, not_true_eq_false, ↓reduceIte,
      String.append_assoc]
    rw [← String.append_assoc "^^" "<", e]

/-- Witness for C14: a literal with the language tag `en` prints as its quoted
value, `@` and the tag. -/
theorem Literal_String_cases_witness :
    ({ val := "Penguin", lang := "en", dt := { val := "" } } : Literal).String String.quote =
      String.quote "Penguin" ++ "@" ++ "en" :=
  (Literal_String_cases String.quote
    { val := "Penguin", lang := "en", dt := { val := "" } }).1 (by decide)

/-! ## Graphs with the same triples, renamed graphs -/

theorem Triple_rename_id (t : Triple) : t.rename id = t := by
  obtain ⟨s, p, o⟩ := t
  cases s <;> cases o <;> rfl

/-- Two graphs that store the same list of triples are `Eq`. -/
theorem Graph_Eq_of_triples_eq (a b : Graph) (h : a.triples = b.triples) : a.Eq b = true := by
  apply Graph_Eq_complete a b id
  · rw [h]
    exact Set.bijOn_id _
  · intro t
    rw [h]
    constructor
    · intro ht
      exact ⟨t, ht, Triple_rename_id t⟩
    · rintro ⟨s, hs, rfl⟩
      rw [Triple_rename_id]
      exact hs

theorem mem_rename_triples (r : BlankNode → BlankNode) (g : Graph) (t : Triple) :
    t ∈ (g.rename r).triples ↔ ∃ s ∈ g.triples, s.rename r = t := by
  simp [Graph.rename, Graph.new, List.mem_dedup, List.mem_map]

/-- C11: a graph is `Eq` to its image under any renaming of blank nodes that
is injective on the blank nodes of the graph (a bijection onto the renamed
blank nodes); with the identity renaming, a graph is `Eq` to itself. -/
theorem Graph_Eq_rename (G : Graph) (r : BlankNode → BlankNode)
    (hr : Set.InjOn r {x | x ∈ blankNodesOf G.triples}) :
    G.Eq (G.rename r) = true ∧ G.Eq G = true := by
  refine ⟨?_, Graph_Eq_of_triples_eq G G rfl⟩
  apply Graph_Eq_complete G (G.rename r) r
  · refine ⟨?_, hr, ?_⟩
    · intro x hx
      obtain ⟨t, ht, hxt⟩ := mem_blankNodesOf.1 hx
      refine mem_blankNodesOf.2 ⟨t.rename r, (mem_rename_triples r G _).2 ⟨t, ht, rfl⟩, ?_⟩
      rw [Triple_blankNodes_rename]
      exact List.mem_map_of_mem r hxt
    · intro y hy
      obtain ⟨t, ht, hyt⟩ := mem_blankNodesOf.1 hy
      obtain ⟨s, hs, rfl⟩ := (mem_rename_triples r G t).1 ht
      rw [Triple_blankNodes_rename] at hyt
      obtain ⟨x, hx, rfl⟩ := List.mem_map.1 hyt
      exact ⟨x, mem_blankNodesOf.2 ⟨s, hs, hx⟩, rfl⟩
  · exact mem_rename_triples r G

theorem swapAB_injOn_testGraphA :
    Set.InjOn swapAB {x | x ∈ blankNodesOf testGraphA.triples} := by
  have hl : blankNodesOf testGraphA.triples = [{ id := "a" }] := by decide
  intro x hx y hy _
  simp only [Set.mem_setOf_eq, hl, List.mem_singleton] at hx hy
  rw [hx, hy]

/-- Witness for C11: exchanging `_:a` and `_:b` in the test graph
`<s> <p> _:a . _:a <p> "xyz" .` gives the test graph with `_:b`, and the two
are `Eq`. -/
theorem Graph_Eq_rename_witness :
    Set.InjOn swapAB {x | x ∈ blankNodesOf testGraphA.triples} ∧
    (testGraphA.rename swapAB).triples = testGraphB.triples ∧
    (testGraphA.Eq (testGraphA.rename swapAB) = true ∧ testGraphA.Eq testGraphA = true) :=
  ⟨swapAB_injOn_testGraphA, by decide,
    Graph_Eq_rename testGraphA swapAB swapAB_injOn_testGraphA⟩

/-! ## Queries with no pattern and with the all-variables pattern -/

/-- C13: `Where` with the empty pattern list returns the empty graph, whatever
the graph: the result is `Eq` to the graph without triples, and it is not the
queried graph unless that graph is empty. -/
theorem Where_nil (G : Graph) :
    (G.Where []).triples = [] ∧ (G.Where []).Eq (Graph.new []) = true ∧
    (G.triples ≠ [] → (G.Where []).triples ≠ G.triples) := by
  have h : (G.Where []).triples = [] := by
    simp [Graph.Where, groupPatternsByVariable, groupIndexed, Graph.new]
  refine ⟨h, Graph_Eq_of_triples_eq _ _ (by rw [h]; rfl), ?_⟩
  intro hne heq
  rw [h] at heq
  exact hne heq.symm

theorem groupPatternsByVariable_singleton (p : TriplePattern) :
    groupPatternsByVariable [p] = [[p]] := by
  simp [groupPatternsByVariable, groupIndexed, addPattern, placeGroup, List.enum,
    List.enumFrom]

theorem matchTriple_allVariables {s p o : Variable} (hsp : s ≠ p) (hso : s ≠ o)
    (hpo : p ≠ o) (t : Triple) :
    matchTriple [] (allVariables s p o) t =
      some [(o.id, t.Obj), (p.id, Term.uri t.Pred), (s.id, t.Subj.toTerm)] := by
  have h1 : p.id ≠ s.id := fun h => hsp (by cases s; cases p; simp_all)
  have h2 : o.id ≠ s.id := fun h => hso (by cases s; cases o; simp_all)
  have h3 : o.id ≠ p.id := fun h => hpo (by cases p; cases o; simp_all)
  simp [matchTriple, matchTerm, allVariables, lookup_cons_ite, h1, h2, h3]

theorem allVariables_matches_all {s p o : Variable} (hsp : s ≠ p) (hso : s ≠ o)
    (hpo : p ≠ o) (G : Graph) : (G.Where [allVariables s p o]).triples = G.triples := by
  have h : matchGroup G.triples [] [] [allVariables s p o] = G.triples := by
    simp only [matchGroup, matchTriple_allVariables hsp hso hpo]
    induction G.triples with
    | nil => rfl
    | cons t ts ih => simp [List.flatMap_cons, ih]
  simp only [Graph.Where, Graph.new, groupPatternsByVariable_singleton, List.flatMap_cons,
    List.flatMap_nil, List.append_nil, h]
  exact List.Nodup.dedup G.nodup

/-- C12: `Where` with the pattern `(?s, ?p, ?o)` of three distinct variables
returns the triples of the graph, so the result is `Eq` to the graph (in both
directions). -/
theorem Where_allVariables (G : Graph) (s p o : Variable) (hsp : s ≠ p) (hso : s ≠ o)
    (hpo : p ≠ o) :
    (G.Where [allVariables s p o]).Eq G = true ∧ G.Eq (G.Where [allVariables s p o]) = true ∧
    (G.Where [allVariables s p o]).triples = G.triples := by
  have h := allVariables_matches_all hsp hso hpo G
  exact ⟨Graph_Eq_of_triples_eq _ _ h, Graph_Eq_of_triples_eq _ _ h.symm, h⟩

/-- Witness for C12: the pattern `(?s, ?p, ?o)` of `TestGraphWhere` on the
test graph `<s> <p> _:a . _:a <p> "xyz" .`. -/
theorem Where_allVariables_witness :
    (testGraphA.Where [allVariables { id := "s" } { id := "p" } { id := "o" }]).Eq testGraphA
        = true ∧
    testGraphA.Eq (testGraphA.Where [allVariables { id := "s" } { id := "p" } { id := "o" }])
        = true ∧
    (testGraphA.Where [allVariables { id := "s" } { id := "p" } { id := "o" }]).triples =
      testGraphA.triples :=
  Where_allVariables testGraphA { id := "s" } { id := "p" } { id := "o" }
    (by decide) (by decide) (by decide)
